import Mathlib

/- Formal model of the ER bed-allocation simulation of this repository:
   the discrete-time engine of `the_er_engine_0.1.py` (Patient, PolicyManager,
   EREngine, run_comparison) and the calibration procedure of
   `simulation_engine.py` (calibrate_royal_victoria), together with theorems
   checking the properties stated in the design document.

   Machine reals of the source are modelled by exact rationals; the stream of
   draws produced by Python's seeded `random` module is modelled by an explicit
   function from draw index to value carried inside the engine state (the seed
   determines that stream, so equal seeds mean equal streams); Python's stable
   `list.sort(key=...)` is modelled by a stable insertion sort by the same key,
   which computes the same output list as any stable sort. -/

attribute [local semireducible] Rat.add Rat.sub Rat.mul Rat.inv

namespace ERSim

/-- Generic stable insertion of `a` into `l`: `a` is placed before the first
element `b` with `le a b`, exactly as `List.orderedInsert`, used to model the
stable sort below. -/
def orderedInsertBy {α : Type} (le : α → α → Bool) (a : α) : List α → List α
  | [] => [a]
  | b :: l => if le a b then a :: b :: l else b :: orderedInsertBy le a l

/-- Generic stable insertion sort by a boolean comparison; extensionally equal
to Python's stable `list.sort` whenever `le` is total and transitive. -/
def insertionSortBy {α : Type} (le : α → α → Bool) : List α → List α
  | [] => []
  | a :: l => orderedInsertBy le a (insertionSortBy le l)

/-- Patient status strings of the source: WAITING, IN_BED, DISCHARGED. -/
inductive Status where
  | WAITING
  | IN_BED
  | DISCHARGED
deriving DecidableEq

/-- The Patient dataclass of `the_er_engine_0.1.py` after `__post_init__`. -/
structure Patient where
  id : ℕ
  arrival_time : ℚ
  service_duration_raw : ℚ
  wait_time : ℚ
  completion_time : Option ℚ
  status : Status
  service_class : String
  priority_weight : ℕ
deriving DecidableEq

/-- The CONFIG dictionary of `the_er_engine_0.1.py` (its four numeric knobs;
the random seed is modelled by the draw stream carried in the engine). -/
structure Config where
  capacity_beds : ℕ
  short_threshold : ℚ
  long_threshold : ℚ
  congestion_penalty : ℚ

/-- Values of CONFIG in the source. -/
def defaultConfig : Config := ⟨33, 14, 32, 1/10⟩

/-- Patient construction including `__post_init__`: wait 0, no completion,
status WAITING, and the triage-lite class from the two thresholds. -/
def mkPatient (cfg : Config) (pid : ℕ) (arrival duration : ℚ) : Patient :=
  if duration < cfg.short_threshold then
    ⟨pid, arrival, duration, 0, none, Status.WAITING, "SHORT", 3⟩
  else if duration > cfg.long_threshold then
    ⟨pid, arrival, duration, 0, none, Status.WAITING, "LONG", 1⟩
  else
    ⟨pid, arrival, duration, 0, none, Status.WAITING, "STANDARD", 2⟩

/-- Lexicographic comparison of the 3-component sort keys, as Python compares
key tuples. -/
def lexLe3 (a b : ℚ × ℚ × ℚ) : Bool :=
  decide (a.1 < b.1 ∨ (a.1 = b.1 ∧ (a.2.1 < b.2.1 ∨ (a.2.1 = b.2.1 ∧ a.2.2 ≤ b.2.2))))

/-- The `get_sort_key` helper of `PolicyManager.sort_queue`. Two-component
keys of the source are padded with a constant third component, which leaves
the comparison of any two keys of the same policy branch unchanged.
`queueLen` is the length of the queue being sorted, used by the
CONGESTION_TRIGGER branch; the final case is the source's fall-through
`return (0, p.arrival_time)` for unrecognized modes. -/
def get_sort_key (mode : String) (queueLen : ℕ) (current_time : ℚ) (p : Patient) :
    ℚ × ℚ × ℚ :=
  if mode = "BASELINE" then ((p.priority_weight : ℚ), p.arrival_time, 0)
  else if mode = "FCFS" then (0, p.arrival_time, 0)
  else if mode = "GUILLOTINE" then
    ((if current_time - p.arrival_time > 24 then (0 : ℚ) else 1),
      (p.priority_weight : ℚ), p.arrival_time)
  else if mode = "CONGESTION_TRIGGER" then
    (if queueLen > 10 then ((p.priority_weight : ℚ), p.arrival_time, 0)
      else ((0 : ℚ), p.arrival_time, 0))
  else ((0 : ℚ), p.arrival_time, 0)

/-- `PolicyManager.sort_queue`: stable sort of the queue by the policy key. -/
def sort_queue (mode : String) (queue : List Patient) (current_time : ℚ) :
    List Patient :=
  insertionSortBy (fun a b =>
    lexLe3 (get_sort_key mode queue.length current_time a)
           (get_sort_key mode queue.length current_time b)) queue

/-- The EREngine state: simulation clock, waiting queue, occupied beds,
completed patients, the policy name held by its PolicyManager, and the
modelled stream of `random.lognormvariate` draws with the count used so far. -/
structure EREngine where
  env_time : ℚ
  queue : List Patient
  beds : List Patient
  completed : List Patient
  policy_name : String
  rng : ℕ → ℚ
  draws : ℕ

/-- The id the source assigns to a patient spawned inside `step`:
`len(completed) + len(beds) + len(queue)` at the moment of the spawn. -/
def totalCount (e : EREngine) : ℕ :=
  e.completed.length + e.beds.length + e.queue.length

/-- `EREngine.spawn_patient`: draw the next duration from the stream, build
the Patient at the current clock, append it to the queue. -/
def spawn_patient (cfg : Config) (e : EREngine) (pid : ℕ) : EREngine :=
  { e with
    queue := e.queue ++ [mkPatient cfg pid e.env_time (e.rng e.draws)],
    draws := e.draws + 1 }

/-- Step phase 1 of `EREngine.step`: spawn `n` new arrivals, each with the id
computed from the current population counts. -/
def spawnLoop (cfg : Config) : EREngine → ℕ → EREngine
  | e, 0 => e
  | e, n + 1 => spawnLoop cfg (spawn_patient cfg e (totalCount e)) n

/-- Step phase 2 of `EREngine.step`: one hour of waiting accrues to a queued
patient. -/
def agePatient (p : Patient) : Patient := { p with wait_time := p.wait_time + 1 }

/-- Step phase 3 of `EREngine.step`: each occupied patient's remaining
duration drops by 1 hour plus the congestion penalty `pen` (0 when not over
capacity); patients reaching a nonpositive remainder are discharged at time
`t` in bed order, the others stay, in order. Returns (newly completed,
remaining beds). -/
def processBeds (pen t : ℚ) : List Patient → List Patient × List Patient
  | [] => ([], [])
  | p :: rest =>
    let d := p.service_duration_raw - 1 + pen
    let pr := processBeds pen t rest
    if d ≤ 0 then
      ({ p with service_duration_raw := d, status := Status.DISCHARGED,
                completion_time := some t } :: pr.1, pr.2)
    else (pr.1, { p with service_duration_raw := d } :: pr.2)

/-- Step phase 4 of `EREngine.step`: while beds are below capacity, pop the
head of the (sorted) queue, mark it IN_BED and append it to the beds. -/
def admitLoop (cap : ℕ) : List Patient → List Patient → List Patient × List Patient
  | beds, [] => (beds, [])
  | beds, p :: rest =>
    if beds.length < cap then
      admitLoop cap (beds ++ [{ p with status := Status.IN_BED }]) rest
    else (beds, p :: rest)

/-- `EREngine.step(hour_index, new_arrivals_count)`: set the clock, spawn
arrivals, age the whole waiting queue (arrivals included), process
discharges with the congestion penalty when over capacity, re-sort the
queue under the policy, then fill empty beds from the queue head. -/
def stepE (cfg : Config) (e0 : EREngine) (t : ℚ) (n : ℕ) : EREngine :=
  let e2 := spawnLoop cfg { e0 with env_time := t } n
  let agedQ := e2.queue.map agePatient
  let pen : ℚ := if cfg.capacity_beds < e2.beds.length then cfg.congestion_penalty else 0
  let pr := processBeds pen t e2.beds
  let sortedQ := sort_queue e2.policy_name agedQ t
  let adm := admitLoop cfg.capacity_beds pr.2 sortedQ
  { e2 with queue := adm.2, beds := adm.1, completed := e2.completed ++ pr.1 }

/-- A freshly constructed EREngine: clock 0, everything empty, given policy
name and draw stream. -/
def initEngine (pol : String) (rng : ℕ → ℚ) : EREngine :=
  ⟨0, [], [], [], pol, rng, 0⟩

/-- One iteration of the warm-start loop of `run_comparison`:
`spawn_patient(999)` followed by moving the queue head directly into the
beds, without touching its status. -/
def warmOnce (cfg : Config) (e : EREngine) : EREngine :=
  let e1 := spawn_patient cfg e 999
  match e1.queue with
  | [] => e1
  | p :: rest => { e1 with queue := rest, beds := e1.beds ++ [p] }

/-- The warm-start loop of `run_comparison` (35 iterations in the source). -/
def warmStart (cfg : Config) : EREngine → ℕ → EREngine
  | e, 0 => e
  | e, n + 1 => warmStart cfg (warmOnce cfg e) n

/-- Run `step(t, n)` for `t = t0, t0+1, ...` with the per-step arrival counts
taken from `arrs`, as the run loop of `run_comparison` does from `t0 = 0`. -/
def runSteps (cfg : Config) : EREngine → ℕ → List ℕ → EREngine
  | e, _, [] => e
  | e, t, n :: rest => runSteps cfg (stepE cfg e (t : ℚ) n) (t + 1) rest

/-- A run by normal stepping only: fresh engine, steps `t = 0, 1, ...`. -/
def runN (cfg : Config) (pol : String) (rng : ℕ → ℚ) (arrs : List ℕ) : EREngine :=
  runSteps cfg (initEngine pol rng) 0 arrs

/-- A full run of `run_comparison` for one policy: fresh engine, 35 warm-start
iterations, then hourly steps with the given arrival counts. -/
def runFull (cfg : Config) (pol : String) (rng : ℕ → ℚ) (arrs : List ℕ) : EREngine :=
  runSteps cfg (warmStart cfg (initEngine pol rng) 35) 0 arrs

/-- Every patient record owned by the engine, queue then beds then completed. -/
def allPatients (e : EREngine) : List Patient := e.queue ++ e.beds ++ e.completed

/-- The observable Patient history of a run: every patient ever created with
its id, arrival time, remaining duration, accumulated wait, status and
completion time, completed patients in completion order. -/
def historyOf (e : EREngine) : List (ℕ × ℚ × ℚ × ℚ × Status × Option ℚ) :=
  (e.completed ++ e.beds ++ e.queue).map
    (fun p => (p.id, p.arrival_time, p.service_duration_raw, p.wait_time,
               p.status, p.completion_time))

/-- Ids of the patients that have been admitted to a bed at some point
(currently occupying one, or already discharged). -/
def admittedIds (e : EREngine) : List ℕ := (e.beds ++ e.completed).map Patient.id

/-- The status transitions the design document allows: stay, or move one step
along WAITING → IN_BED → DISCHARGED. -/
def legalStatus : Status → Status → Bool
  | Status.WAITING, Status.WAITING => true
  | Status.WAITING, Status.IN_BED => true
  | Status.IN_BED, Status.IN_BED => true
  | Status.IN_BED, Status.DISCHARGED => true
  | Status.DISCHARGED, Status.DISCHARGED => true
  | _, _ => false

/-- Strict first-come-first-served precedence between two patients: earlier
arrival, or equal arrival and earlier creation (ids are assigned in creation
order in runs by normal stepping). -/
def pkLt (a b : Patient) : Prop :=
  a.arrival_time < b.arrival_time ∨ (a.arrival_time = b.arrival_time ∧ a.id < b.id)

/-- Nonstrict version of `pkLt`. -/
def pkLe (a b : Patient) : Prop :=
  a.arrival_time < b.arrival_time ∨ (a.arrival_time = b.arrival_time ∧ a.id ≤ b.id)

/-- The GUILLOTINE crisis test of the source: waiting longer than 24 hours. -/
def isCrisis (now : ℚ) (p : Patient) : Bool := decide (now - p.arrival_time > 24)

/-- The BASELINE key comparison (priority weight ascending, then arrival). -/
def baseLe (a b : Patient) : Bool :=
  decide ((a.priority_weight : ℚ) < (b.priority_weight : ℚ) ∨
    ((a.priority_weight : ℚ) = (b.priority_weight : ℚ) ∧ a.arrival_time ≤ b.arrival_time))

/-- One row of the calibration input, with facility name possibly absent and
the three numeric fields already passed through `pd.to_numeric(errors =
coerce)`: `none` models NaN, i.e. a missing or unparsable value. -/
structure RawRecord where
  nom : Option String
  fonc : Option ℚ
  dms : Option ℚ
  occ : Option ℚ

/-- Boolean infix test on character lists. -/
def isInfixL (pat : List Char) : List Char → Bool
  | [] => pat.isEmpty
  | c :: rest => pat.isPrefixOf (c :: rest) || isInfixL pat rest

/-- The facility filter of `calibrate_royal_victoria`: case-insensitive
substring match of "ROYAL VICTORIA" with NaN names treated as no match
(`str.contains(..., case=False, na=False)`). -/
def matchesRoyalVictoria (nom : Option String) : Bool :=
  match nom with
  | none => false
  | some s => isInfixL ("ROYAL VICTORIA".toList) (s.toList.map Char.toUpper)

/-- The records that survive both the facility filter and the
`dropna(subset=cols_to_clean)` cleaning, projected to their three numeric
fields (functional beds, stretcher-wait duration, occupied beds). -/
def cleanedOf (recs : List RawRecord) : List (ℚ × ℚ × ℚ) :=
  (recs.filter (fun r => matchesRoyalVictoria r.nom)).filterMap
    (fun r => match r.fonc, r.dms, r.occ with
      | some a, some b, some c => some (a, b, c)
      | _, _, _ => none)

/-- The pandas `Series.median`: sort numerically; middle value for an odd
count, average of the two middle values for an even count. -/
def median (l : List ℚ) : ℚ :=
  let s := insertionSortBy (fun a b => decide (a ≤ b)) l
  if l.length % 2 = 1 then s.getD (l.length / 2) 0
  else (s.getD (l.length / 2 - 1) 0 + s.getD (l.length / 2) 0) / 2

/-- Python's `int()` on a finite number: truncation toward zero. -/
def pyInt (q : ℚ) : ℤ := Int.tdiv q.num (q.den : ℤ)

/-- The ways `calibrate_royal_victoria` can fail: the explicit ValueError
when no record matches the facility, and the ValueError `int()` raises on the
NaN median when every matched record is dropped by the cleaning. The design
document names both DataValidationError. -/
inductive CalError where
  | noMatch
  | allDropped
deriving DecidableEq

instance {ε α : Type} [DecidableEq ε] [DecidableEq α] : DecidableEq (Except ε α) :=
  fun a b =>
    match a, b with
    | Except.ok x, Except.ok y =>
      if h : x = y then isTrue (congrArg Except.ok h)
      else isFalse (fun c => h (Except.ok.inj c))
    | Except.error x, Except.error y =>
      if h : x = y then isTrue (congrArg Except.error h)
      else isFalse (fun c => h (Except.error.inj c))
    | Except.ok _, Except.error _ => isFalse (fun c => Except.noConfusion c)
    | Except.error _, Except.ok _ => isFalse (fun c => Except.noConfusion c)

/-- `calibrate_royal_victoria`, returning (capacity, meanServiceTime,
arrivalRate) on success: capacity is `int(median(functional beds))`,
meanServiceTime is `median(stretcher-wait duration)`, and arrivalRate is
`median(occupied)/meanServiceTime` when the latter is positive, else the
fallback 1.0. -/
def calibrate (recs : List RawRecord) : Except CalError (ℤ × ℚ × ℚ) :=
  let vic := recs.filter (fun r => matchesRoyalVictoria r.nom)
  if vic.isEmpty then Except.error CalError.noMatch
  else
    let cleaned := cleanedOf recs
    if cleaned.isEmpty then Except.error CalError.allDropped
    else
      let real_capacity := pyInt (median (cleaned.map (fun r => r.1)))
      let avg_length_of_stay := median (cleaned.map (fun r => r.2.1))
      let avg_occ := median (cleaned.map (fun r => r.2.2))
      let rate := if avg_length_of_stay > 0 then avg_occ / avg_length_of_stay else 1
      Except.ok (real_capacity, avg_length_of_stay, rate)

/-- Capacity as the specification document words it (round of the median of
the functional-bed count), for comparison with the source's `int(...)`. -/
def specCapacityRound (recs : List RawRecord) : ℤ :=
  round (median ((cleanedOf recs).map (fun r => r.1)))

/-- A constant draw stream: every spawned patient gets duration 5 hours. -/
def rngFive : ℕ → ℚ := fun _ => 5

/-- A constant draw stream of 1-hour durations, used for the warm-start
counterexample. -/
def rngOne : ℕ → ℚ := fun _ => 1

/-- Scenario 1 of the design document: capacity 2, everything else as in
CONFIG. -/
def cfgTwo : Config := { defaultConfig with capacity_beds := 2 }

/-- Scenario 1 run prefix: the state after `step(0, 3)` .. `step(k-1, 0)`. -/
def scenario1 (k : ℕ) : EREngine :=
  runN cfgTwo "FCFS" rngFive ([3] ++ List.replicate (k - 1) 0)

/-- Two calibration rows both matching Royal Victoria, with functional-bed
counts 33 and 34 (median 33.5), wait-duration median 2 and occupied median 4. -/
def demoRecs : List RawRecord :=
  [⟨some "ROYAL VICTORIA HOSPITAL", some 33, some 2, some 4⟩,
   ⟨some "Royal Victoria (GLEN)", some 34, some 2, some 4⟩]

/-- The GUILLOTINE sort key as the source computes it: crisis flag, then
priority weight, then arrival time. -/
def guillotineKey (now : ℚ) (p : Patient) : ℚ × ℚ × ℚ :=
  ((if now - p.arrival_time > 24 then (0 : ℚ) else 1),
   (p.priority_weight : ℚ), p.arrival_time)

/-- Comparison of two patients under the GUILLOTINE key. -/
def guillotineLe (now : ℚ) (a b : Patient) : Bool :=
  lexLe3 (guillotineKey now a) (guillotineKey now b)

/-- Ids of every patient record owned by the engine. -/
def allIds (e : EREngine) : List ℕ := (allPatients e).map Patient.id

/-- Statuses agree with container membership: queued patients are WAITING,
occupants IN_BED, completed patients DISCHARGED. This is what normal stepping
maintains and what the warm start of `run_comparison` breaks. -/
def statusInv (e : EREngine) : Prop :=
  (∀ p ∈ e.queue, p.status = Status.WAITING) ∧
  (∀ p ∈ e.beds, p.status = Status.IN_BED) ∧
  (∀ p ∈ e.completed, p.status = Status.DISCHARGED)

/-- Patient ids are pairwise distinct and below the population count, as the
id assignment of `step` guarantees along runs from the fresh engine. -/
def idsOk (e : EREngine) : Prop :=
  (allIds e).Nodup ∧ ∀ p ∈ allPatients e, p.id < totalCount e

end ERSim

namespace ERSim

/- Generic facts about the stable insertion sort. -/

theorem perm_orderedInsertBy {α : Type} (le : α → α → Bool) (a : α) (l : List α) :
    (orderedInsertBy le a l).Perm (a :: l) := by
  induction l with
  | nil => exact List.Perm.refl _
  | cons b l ih =>
    by_cases h : le a b = true
    · simp [orderedInsertBy, h]
    · simp only [orderedInsertBy, h, if_false, Bool.false_eq_true, if_neg, not_false_iff]
      exact ((ih.cons b).trans (List.Perm.swap a b l))

theorem perm_insertionSortBy {α : Type} (le : α → α → Bool) (l : List α) :
    (insertionSortBy le l).Perm l := by
  induction l with
  | nil => exact List.Perm.refl _
  | cons a l ih => exact (perm_orderedInsertBy le a _).trans (ih.cons a)

theorem pairwise_orderedInsertBy {α : Type} {le : α → α → Bool} {R : α → α → Prop}
    (hR : ∀ x y, ¬ le x y = true → R y x) {a : α} {l : List α}
    (ha : ∀ x ∈ l, R a x) (hl : l.Pairwise R) :
    (orderedInsertBy le a l).Pairwise R := by
  induction l with
  | nil => simp [orderedInsertBy]
  | cons b l ih =>
    rcases List.pairwise_cons.mp hl with ⟨hb, hl'⟩
    by_cases h : le a b = true
    · simp only [orderedInsertBy, h, if_true]
      exact List.pairwise_cons.mpr ⟨ha, hl⟩
    · simp only [orderedInsertBy, h, if_false, Bool.false_eq_true, if_neg, not_false_iff]
      refine List.pairwise_cons.mpr ⟨?_, ?_⟩
      · intro y hy
        rcases List.mem_cons.mp ((perm_orderedInsertBy le a l).mem_iff.mp hy) with rfl | hyl
        · exact hR y b h
        · exact hb y hyl
      · exact ih (fun x hx => ha x (List.mem_cons_of_mem b hx)) hl'

theorem sorted_orderedInsertBy {α : Type} {le : α → α → Bool}
    (htot : ∀ x y, ¬ le x y = true → le y x = true)
    (htrans : ∀ x y z, le x y = true → le y z = true → le x z = true)
    {a : α} {l : List α} (hl : l.Pairwise (fun x y => le x y = true)) :
    (orderedInsertBy le a l).Pairwise (fun x y => le x y = true) := by
  induction l with
  | nil => simp [orderedInsertBy]
  | cons b l ih =>
    rcases List.pairwise_cons.mp hl with ⟨hb, hl'⟩
    by_cases h : le a b = true
    · simp only [orderedInsertBy, h, if_true]
      refine List.pairwise_cons.mpr ⟨?_, hl⟩
      intro y hy
      rcases List.mem_cons.mp hy with rfl | hyl
      · exact h
      · exact htrans a b y h (hb y hyl)
    · simp only [orderedInsertBy, h, if_false, Bool.false_eq_true, if_neg, not_false_iff]
      refine List.pairwise_cons.mpr ⟨?_, ih hl'⟩
      intro y hy
      rcases List.mem_cons.mp ((perm_orderedInsertBy le a l).mem_iff.mp hy) with rfl | hyl
      · exact htot y b h
      · exact hb y hyl

theorem sorted_insertionSortBy {α : Type} {le : α → α → Bool}
    (htot : ∀ x y, ¬ le x y = true → le y x = true)
    (htrans : ∀ x y z, le x y = true → le y z = true → le x z = true)
    (l : List α) :
    (insertionSortBy le l).Pairwise (fun x y => le x y = true) := by
  induction l with
  | nil => exact List.Pairwise.nil
  | cons a l ih => exact sorted_orderedInsertBy htot htrans ih

theorem pairwise_insertionSortBy {α : Type} {le : α → α → Bool} {R : α → α → Prop}
    (hR : ∀ x y, ¬ le x y = true → R y x) {l : List α} (hl : l.Pairwise R) :
    (insertionSortBy le l).Pairwise R := by
  induction l with
  | nil => exact List.Pairwise.nil
  | cons a l ih =>
    rcases List.pairwise_cons.mp hl with ⟨ha, hl'⟩
    exact pairwise_orderedInsertBy hR
      (fun x hx => ha x ((perm_insertionSortBy le l).mem_iff.mp hx)) (ih hl')

theorem filter_orderedInsertBy {α : Type} {le : α → α → Bool} (p : α → Bool)
    {a : α} (hp : p a = true → ∀ b, ¬ le a b = true → p b = false) (l : List α) :
    (orderedInsertBy le a l).filter p = (a :: l).filter p := by
  induction l with
  | nil => rfl
  | cons b l ih =>
    by_cases h : le a b = true
    · simp [orderedInsertBy, h]
    · simp only [orderedInsertBy, h, if_false, Bool.false_eq_true, if_neg, not_false_iff]
      by_cases hpa : p a = true
      · have hpb : p b = false := hp hpa b h
        simp [List.filter_cons, hpa, hpb, ih]
      · simp [List.filter_cons, hpa, ih]

theorem filter_insertionSortBy {α : Type} {le : α → α → Bool} (p : α → Bool)
    (hp : ∀ a, p a = true → ∀ b, ¬ le a b = true → p b = false) (l : List α) :
    (insertionSortBy le l).filter p = l.filter p := by
  induction l with
  | nil => rfl
  | cons a l ih =>
    simp only [insertionSortBy]
    rw [filter_orderedInsertBy p (hp a), List.filter_cons, List.filter_cons, ih]

end ERSim

namespace ERSim

/- Structural facts about the step phases. -/

theorem spawn_patient_beds (cfg : Config) (e : EREngine) (pid : ℕ) :
    (spawn_patient cfg e pid).beds = e.beds := rfl

theorem spawnLoop_beds (cfg : Config) (e : EREngine) (n : ℕ) :
    (spawnLoop cfg e n).beds = e.beds := by
  induction n generalizing e with
  | zero => rfl
  | succ n ih => exact ih _

theorem spawnLoop_completed (cfg : Config) (e : EREngine) (n : ℕ) :
    (spawnLoop cfg e n).completed = e.completed := by
  induction n generalizing e with
  | zero => rfl
  | succ n ih => exact ih _

theorem spawnLoop_policy (cfg : Config) (e : EREngine) (n : ℕ) :
    (spawnLoop cfg e n).policy_name = e.policy_name := by
  induction n generalizing e with
  | zero => rfl
  | succ n ih => exact ih _

theorem spawnLoop_env_time (cfg : Config) (e : EREngine) (n : ℕ) :
    (spawnLoop cfg e n).env_time = e.env_time := by
  induction n generalizing e with
  | zero => rfl
  | succ n ih => exact ih _

theorem stepE_beds (cfg : Config) (e : EREngine) (t : ℚ) (n : ℕ) :
    (stepE cfg e t n).beds =
      (admitLoop cfg.capacity_beds
        (processBeds
          (if cfg.capacity_beds < (spawnLoop cfg { e with env_time := t } n).beds.length
            then cfg.congestion_penalty else 0)
          t (spawnLoop cfg { e with env_time := t } n).beds).2
        (sort_queue (spawnLoop cfg { e with env_time := t } n).policy_name
          ((spawnLoop cfg { e with env_time := t } n).queue.map agePatient) t)).1 := rfl

theorem stepE_queue (cfg : Config) (e : EREngine) (t : ℚ) (n : ℕ) :
    (stepE cfg e t n).queue =
      (admitLoop cfg.capacity_beds
        (processBeds
          (if cfg.capacity_beds < (spawnLoop cfg { e with env_time := t } n).beds.length
            then cfg.congestion_penalty else 0)
          t (spawnLoop cfg { e with env_time := t } n).beds).2
        (sort_queue (spawnLoop cfg { e with env_time := t } n).policy_name
          ((spawnLoop cfg { e with env_time := t } n).queue.map agePatient) t)).2 := rfl

theorem stepE_completed (cfg : Config) (e : EREngine) (t : ℚ) (n : ℕ) :
    (stepE cfg e t n).completed =
      (spawnLoop cfg { e with env_time := t } n).completed ++
      (processBeds
        (if cfg.capacity_beds < (spawnLoop cfg { e with env_time := t } n).beds.length
          then cfg.congestion_penalty else 0)
        t (spawnLoop cfg { e with env_time := t } n).beds).1 := rfl

theorem processBeds_length_le (pen t : ℚ) (l : List Patient) :
    (processBeds pen t l).2.length ≤ l.length := by
  induction l with
  | nil => simp [processBeds]
  | cons p rest ih =>
    simp only [processBeds]
    by_cases h : p.service_duration_raw - 1 + pen ≤ 0
    · rw [if_pos h]
      exact le_trans ih (Nat.le_succ _)
    · rw [if_neg h]
      simpa using Nat.succ_le_succ ih

theorem admitLoop_length_le (cap : ℕ) (q : List Patient) :
    ∀ beds : List Patient, beds.length ≤ cap → (admitLoop cap beds q).1.length ≤ cap := by
  induction q with
  | nil => intro beds h; exact h
  | cons p rest ih =>
    intro beds h
    simp only [admitLoop]
    by_cases hlt : beds.length < cap
    · rw [if_pos hlt]
      exact ih _ (by simpa using Nat.succ_le_of_lt hlt)
    · rw [if_neg hlt]
      exact h

theorem admitLoop_at_cap (cap : ℕ) (beds q : List Patient) (h : cap ≤ beds.length) :
    admitLoop cap beds q = (beds, q) := by
  cases q with
  | nil => rfl
  | cons p rest =>
    simp only [admitLoop]
    rw [if_neg (Nat.not_lt.mpr h)]

/-- C1: a step of the engine preserves the capacity bound on the bed set —
if |beds| is at most the configured capacity before `step(t, n)`, it still is
after the discharges, the reordering and the admission loop of that step; and
the admission loop admits nobody once the bed list is at (or beyond)
capacity. -/
theorem capacity_invariant (cfg : Config) (e : EREngine) (t : ℚ) (n : ℕ)
    (beds q : List Patient)
    (hstart : e.beds.length ≤ cfg.capacity_beds)
    (hfull : cfg.capacity_beds ≤ beds.length) :
    (stepE cfg e t n).beds.length ≤ cfg.capacity_beds ∧
    admitLoop cfg.capacity_beds beds q = (beds, q) := by
  refine ⟨?_, admitLoop_at_cap _ _ _ hfull⟩
  rw [stepE_beds]
  apply admitLoop_length_le
  exact le_trans (processBeds_length_le _ _ _) (by rw [spawnLoop_beds]; exact hstart)

/-- Witness for C1 at a concrete engine (empty fresh engine, step admitting 2
patients with the default capacity 33, and a full 33-bed list for the
at-capacity part). -/
theorem capacity_invariant_witness :
    (initEngine "FCFS" rngFive).beds.length ≤ defaultConfig.capacity_beds ∧
    defaultConfig.capacity_beds ≤ (List.replicate 33 (mkPatient defaultConfig 0 0 5)).length ∧
    ((stepE defaultConfig (initEngine "FCFS" rngFive) 0 2).beds.length ≤
        defaultConfig.capacity_beds ∧
      admitLoop defaultConfig.capacity_beds
          (List.replicate 33 (mkPatient defaultConfig 0 0 5)) [mkPatient defaultConfig 1 0 5] =
        (List.replicate 33 (mkPatient defaultConfig 0 0 5), [mkPatient defaultConfig 1 0 5])) :=
  ⟨by decide, by decide,
    capacity_invariant defaultConfig (initEngine "FCFS" rngFive) 0 2
      (List.replicate 33 (mkPatient defaultConfig 0 0 5)) [mkPatient defaultConfig 1 0 5]
      (by decide) (by decide)⟩

/-- Counterexample to C2 as stated: in Scenario 1 (capacity 2, all durations
exactly 5 hours, 3 arrivals at t = 0, FCFS), the third patient is admitted
during step t = 5 but its final accumulated wait time equals 6.0, not 5.0 —
the engine ages the whole waiting queue, the step's own arrivals included,
once per step from the arrival step through the admission step inclusive. -/
theorem scenario1_wait_is_six :
    (scenario1 6).beds.map (fun p => (p.id, p.wait_time)) = [(2, 6)] ∧
    ¬ ((6 : ℚ) = 5) := by
  exact ⟨by decide, by decide⟩

/-- C2 (amended): in Scenario 1 the first two patients are admitted during
step t = 0, the third waits through steps 1..4, is admitted during step t = 5
(the step in which both occupants are discharged with completion time 5), and
its final accumulated wait time is 6.0. -/
theorem scenario1_amended :
    (scenario1 1).beds.map (fun p => (p.id, p.status)) =
      [(0, Status.IN_BED), (1, Status.IN_BED)] ∧
    (scenario1 1).queue.map (fun p => (p.id, p.status)) = [(2, Status.WAITING)] ∧
    (scenario1 5).queue.map (fun p => p.id) = [2] ∧
    (scenario1 5).beds.map (fun p => p.id) = [0, 1] ∧
    (scenario1 6).beds.map (fun p => (p.id, p.status, p.wait_time)) =
      [(2, Status.IN_BED, 6)] ∧
    (scenario1 6).completed.map (fun p => (p.id, p.completion_time)) =
      [(0, some 5), (1, some 5)] := by
  refine ⟨?_, ?_, ?_, ?_, ?_, ?_⟩ <;> decide

/-- C3: a full `run_comparison`-style run (fresh engine, 35 warm-start
iterations, hourly steps) is a deterministic function of the draw stream (the
seed), the per-step arrival-count sequence, and the policy variant: two runs
agreeing on all three produce the identical Patient history — same ids,
durations, wait times, statuses, completion times, and completion order. -/
theorem run_determinism (cfg : Config) (rng1 rng2 : ℕ → ℚ) (arrs1 arrs2 : List ℕ)
    (pol1 pol2 : String) (h1 : rng1 = rng2) (h2 : arrs1 = arrs2) (h3 : pol1 = pol2) :
    historyOf (runFull cfg pol1 rng1 arrs1) = historyOf (runFull cfg pol2 rng2 arrs2) := by
  subst h1; subst h2; subst h3; rfl

/-- Witness for C3 at a concrete seed stream, arrival sequence and policy. -/
theorem run_determinism_witness :
    rngFive = rngFive ∧ [2, 1] = [2, 1] ∧ "FCFS" = "FCFS" ∧
    historyOf (runFull defaultConfig "FCFS" rngFive [2, 1]) =
      historyOf (runFull defaultConfig "FCFS" rngFive [2, 1]) :=
  ⟨rfl, rfl, rfl,
    run_determinism defaultConfig rngFive rngFive [2, 1] [2, 1] "FCFS" "FCFS" rfl rfl rfl⟩

/-- Counterexample to C9 as stated: an engine constructed with the policy
name "NOT_A_POLICY" (outside the four-variant enumeration) raises nothing —
the engine is built carrying that name, and a run is performed in which a
patient is admitted, so runs under unrecognized policy names do happen. -/
theorem unknown_policy_runs :
    (initEngine "NOT_A_POLICY" rngFive).policy_name = "NOT_A_POLICY" ∧
    (runN defaultConfig "NOT_A_POLICY" rngFive [1]).beds.map
      (fun p => (p.id, p.status)) = [(0, Status.IN_BED)] := by
  exact ⟨by decide, by decide⟩

/-- C9 (amended): construction accepts any policy string without validation,
and `sort_queue` under a name outside {FCFS, BASELINE, GUILLOTINE,
CONGESTION_TRIGGER} falls through to the FCFS key `(0, arrivalTime)`, so such
runs behave exactly like FCFS runs at every reorder. -/
theorem unknown_policy_sorts_fcfs (mode : String) (q : List Patient) (t : ℚ)
    (h1 : mode ≠ "BASELINE") (h2 : mode ≠ "FCFS") (h3 : mode ≠ "GUILLOTINE")
    (h4 : mode ≠ "CONGESTION_TRIGGER") :
    sort_queue mode q t = sort_queue "FCFS" q t := by
  have hk : ∀ (L : ℕ) (p : Patient), get_sort_key mode L t p = get_sort_key "FCFS" L t p := by
    intro L p
    simp [get_sort_key, h1, h2, h3, h4]
  unfold sort_queue
  congr 1
  funext a b
  rw [hk, hk]

/-- Witness for C9's amended theorem at the concrete unknown mode "LIFO" and
a concrete two-patient queue. -/
theorem unknown_policy_sorts_fcfs_witness :
    ("LIFO" ≠ "BASELINE") ∧ ("LIFO" ≠ "FCFS") ∧ ("LIFO" ≠ "GUILLOTINE") ∧
    ("LIFO" ≠ "CONGESTION_TRIGGER") ∧
    sort_queue "LIFO" [mkPatient defaultConfig 0 3 5, mkPatient defaultConfig 1 1 40] 4 =
      sort_queue "FCFS" [mkPatient defaultConfig 0 3 5, mkPatient defaultConfig 1 1 40] 4 :=
  ⟨by decide, by decide, by decide, by decide,
    unknown_policy_sorts_fcfs "LIFO"
      [mkPatient defaultConfig 0 3 5, mkPatient defaultConfig 1 1 40] 4
      (by decide) (by decide) (by decide) (by decide)⟩

end ERSim


namespace ERSim

/-- Counterexample to C5 as stated: on two matching records with functional-bed
counts 33 and 34 the median is 33.5; the calibrator returns capacity 33
(Python `int()` truncates toward zero), while round(median) = 34 as the claim
words it — so capacity is not round(median). The other two outputs follow the
claim (service-time median 2, arrival rate 4/2 = 2). -/
theorem calibrate_truncates_not_rounds :
    calibrate demoRecs = Except.ok (33, 2, 2) ∧
    specCapacityRound demoRecs = 34 ∧
    ¬ calibrate demoRecs = Except.ok (specCapacityRound demoRecs, 2, 2) := by
  exact ⟨by decide, by decide, by decide⟩

/-- Helper: the calibrator succeeds with the truncation, median and
Little's-Law formulas whenever at least one cleaned record survives. -/
theorem calibrate_ok_of_cleaned (recs : List RawRecord) (h : cleanedOf recs ≠ []) :
    calibrate recs = Except.ok
      (pyInt (median ((cleanedOf recs).map (fun r => r.1))),
       median ((cleanedOf recs).map (fun r => r.2.1)),
       if median ((cleanedOf recs).map (fun r => r.2.1)) > 0 then
         median ((cleanedOf recs).map (fun r => r.2.2)) /
           median ((cleanedOf recs).map (fun r => r.2.1))
       else 1) := by
  have hvic : ¬ (recs.filter (fun r => matchesRoyalVictoria r.nom)).isEmpty = true := by
    intro hv
    apply h
    unfold cleanedOf
    rw [List.isEmpty_iff.mp hv]
    rfl
  have hcl : ¬ (cleanedOf recs).isEmpty = true := by
    intro hc
    exact h (List.isEmpty_iff.mp hc)
  simp only [calibrate]
  rw [if_neg hvic, if_neg hcl]

/-- C5 (amended): for every record set with at least one surviving cleaned
record, the calibrator returns capacity = truncation toward zero of
median(functional-bed count) (Python `int()`, not round), meanServiceTime =
median(stretcher-wait duration), and arrivalRate = median(occupied-bed count)
/ meanServiceTime when meanServiceTime > 0, else the fixed fallback 1.0;
median is the average of the two middle values after numeric sort when the
count is even. -/
theorem calibrate_formula (recs : List RawRecord) (h : cleanedOf recs ≠ []) :
    calibrate recs = Except.ok
      (pyInt (median ((cleanedOf recs).map (fun r => r.1))),
       median ((cleanedOf recs).map (fun r => r.2.1)),
       if median ((cleanedOf recs).map (fun r => r.2.1)) > 0 then
         median ((cleanedOf recs).map (fun r => r.2.2)) /
           median ((cleanedOf recs).map (fun r => r.2.1))
       else 1) :=
  calibrate_ok_of_cleaned recs h

/-- Witness for C5's amended theorem at the concrete record set. -/
theorem calibrate_formula_witness :
    cleanedOf demoRecs ≠ [] ∧
    calibrate demoRecs = Except.ok
      (pyInt (median ((cleanedOf demoRecs).map (fun r => r.1))),
       median ((cleanedOf demoRecs).map (fun r => r.2.1)),
       if median ((cleanedOf demoRecs).map (fun r => r.2.1)) > 0 then
         median ((cleanedOf demoRecs).map (fun r => r.2.2)) /
           median ((cleanedOf demoRecs).map (fun r => r.2.1))
       else 1) :=
  ⟨by decide, calibrate_formula demoRecs (by decide)⟩

/-- C6: calibration fails exactly when no record matches the facility filter
(the explicit ValueError, modelled as noMatch) or when every matched record is
dropped by the numeric cleaning (the ValueError that `int()` raises on the NaN
median, modelled as allDropped); with at least one surviving record it always
returns a result. -/
theorem calibrate_error_conditions (recs : List RawRecord) :
    (calibrate recs = Except.error CalError.noMatch ↔
      recs.filter (fun r => matchesRoyalVictoria r.nom) = []) ∧
    (calibrate recs = Except.error CalError.allDropped ↔
      (recs.filter (fun r => matchesRoyalVictoria r.nom) ≠ [] ∧ cleanedOf recs = [])) ∧
    ((calibrate recs).isOk = true ↔ cleanedOf recs ≠ []) := by
  by_cases hv : recs.filter (fun r => matchesRoyalVictoria r.nom) = []
  · have hcl : cleanedOf recs = [] := by
      unfold cleanedOf
      rw [hv]
      rfl
    have hcal : calibrate recs = Except.error CalError.noMatch := by
      simp only [calibrate]
      rw [if_pos (List.isEmpty_iff.mpr hv)]
    rw [hcal]
    refine ⟨by simp [hv], ?_, by simp [Except.isOk, Except.toBool, hcl]⟩
    constructor
    · intro h
      exact CalError.noConfusion (Except.error.inj h)
    · rintro ⟨h1, _⟩
      exact absurd hv h1
  · by_cases hc : cleanedOf recs = []
    · have hcal : calibrate recs = Except.error CalError.allDropped := by
        simp only [calibrate]
        rw [if_neg (fun h => hv (List.isEmpty_iff.mp h)),
            if_pos (List.isEmpty_iff.mpr hc)]
      rw [hcal]
      refine ⟨?_, by simp [hv, hc], by simp [Except.isOk, Except.toBool, hc]⟩
      constructor
      · intro h
        exact CalError.noConfusion (Except.error.inj h)
      · intro h
        exact absurd h hv
    · have hcal := calibrate_ok_of_cleaned recs hc
      rw [hcal]
      refine ⟨by simp [hv], by simp [hc], by simp [Except.isOk, Except.toBool, hc]⟩

end ERSim

namespace ERSim

/- Facts about the lexicographic key comparison. -/

theorem lexLe3_refl (a : ℚ × ℚ × ℚ) : lexLe3 a a = true := by
  simp [lexLe3]

theorem lexLe3_total (a b : ℚ × ℚ × ℚ) (h : ¬ lexLe3 a b = true) : lexLe3 b a = true := by
  simp only [lexLe3, decide_eq_true_eq] at h ⊢
  rcases lt_trichotomy a.1 b.1 with h1 | h1 | h1
  · exact absurd (Or.inl h1) h
  · rcases lt_trichotomy a.2.1 b.2.1 with h2 | h2 | h2
    · exact absurd (Or.inr ⟨h1, Or.inl h2⟩) h
    · rcases le_or_lt a.2.2 b.2.2 with h3 | h3
      · exact absurd (Or.inr ⟨h1, Or.inr ⟨h2, h3⟩⟩) h
      · exact Or.inr ⟨h1.symm, Or.inr ⟨h2.symm, le_of_lt h3⟩⟩
    · exact Or.inr ⟨h1.symm, Or.inl h2⟩
  · exact Or.inl h1

theorem lexLe3_trans (a b c : ℚ × ℚ × ℚ) (h1 : lexLe3 a b = true) (h2 : lexLe3 b c = true) :
    lexLe3 a c = true := by
  simp only [lexLe3, decide_eq_true_eq] at h1 h2 ⊢
  rcases h1 with h1 | ⟨e1, h1⟩
  · rcases h2 with h2 | ⟨e2, _⟩
    · exact Or.inl (h1.trans h2)
    · exact Or.inl (e2 ▸ h1)
  · rcases h2 with h2 | ⟨e2, h2⟩
    · exact Or.inl (e1 ▸ h2)
    · refine Or.inr ⟨e1.trans e2, ?_⟩
      rcases h1 with h1 | ⟨f1, h1⟩
      · rcases h2 with h2 | ⟨f2, _⟩
        · exact Or.inl (h1.trans h2)
        · exact Or.inl (f2 ▸ h1)
      · rcases h2 with h2 | ⟨f2, h2⟩
        · exact Or.inl (f1 ▸ h2)
        · exact Or.inr ⟨f1.trans f2, h1.trans h2⟩

theorem get_sort_key_guillotine (L : ℕ) (t : ℚ) (p : Patient) :
    get_sort_key "GUILLOTINE" L t p = guillotineKey t p := by
  simp [get_sort_key, guillotineKey]

theorem sort_queue_guillotine (q : List Patient) (now : ℚ) :
    sort_queue "GUILLOTINE" q now = insertionSortBy (guillotineLe now) q := by
  unfold sort_queue
  congr 1

theorem gLe_crisis (now : ℚ) (a b : Patient) (h : guillotineLe now a b = true)
    (hb : isCrisis now b = true) : isCrisis now a = true := by
  by_contra ha
  have ea : (guillotineKey now a).1 = 1 := by
    simp only [guillotineKey]
    rw [if_neg]
    intro hc
    exact ha (by simp [isCrisis, hc])
  have eb : (guillotineKey now b).1 = 0 := by
    simp only [guillotineKey]
    rw [if_pos]
    simpa [isCrisis] using hb
  simp only [guillotineLe, lexLe3, decide_eq_true_eq] at h
  rcases h with h | ⟨e, _⟩
  · rw [ea, eb] at h
    norm_num at h
  · rw [ea, eb] at e
    norm_num at e

theorem gLe_base (now : ℚ) (a b : Patient) (h : guillotineLe now a b = true)
    (hab : isCrisis now a = isCrisis now b) : baseLe a b = true := by
  have e : (guillotineKey now a).1 = (guillotineKey now b).1 := by
    simp only [guillotineKey]
    by_cases hca : now - a.arrival_time > 24
    · have hcb : now - b.arrival_time > 24 := by
        have h1 : isCrisis now b = true := by
          rw [← hab]
          simp [isCrisis, hca]
        simpa [isCrisis] using h1
      rw [if_pos hca, if_pos hcb]
    · have hcb : ¬ now - b.arrival_time > 24 := by
        have h1 : isCrisis now b = false := by
          rw [← hab]
          simp [isCrisis, hca]
        simpa [isCrisis] using h1
      rw [if_neg hca, if_neg hcb]
  simp only [guillotineLe, lexLe3, decide_eq_true_eq] at h
  rcases h with h | ⟨_, h2⟩
  · rw [e] at h
    exact absurd h (lt_irrefl _)
  · simp only [baseLe, decide_eq_true_eq]
    exact h2

/-- C4: reordering under GUILLOTINE at time `now` is a permutation of the
queue in which (i) whenever a patient precedes another, a crisis successor
forces a crisis predecessor — so every patient waiting more than 24 hours is
ordered before every patient that is not, regardless of triage class; (ii)
within the crisis group and within the non-crisis group the order is the
BASELINE order (priorityWeight ascending, then arrivalTime); and (iii) the
sort is stable: patients with equal full keys keep their queue order (the
sublist holding any fixed key value is unchanged). -/
theorem guillotine_precedence (q : List Patient) (now : ℚ) :
    (sort_queue "GUILLOTINE" q now).Perm q ∧
    (sort_queue "GUILLOTINE" q now).Pairwise
      (fun a b => isCrisis now b = true → isCrisis now a = true) ∧
    (sort_queue "GUILLOTINE" q now).Pairwise
      (fun a b => isCrisis now a = isCrisis now b → baseLe a b = true) ∧
    ∀ k : ℚ × ℚ × ℚ,
      (sort_queue "GUILLOTINE" q now).filter (fun p => decide (guillotineKey now p = k)) =
        q.filter (fun p => decide (guillotineKey now p = k)) := by
  rw [sort_queue_guillotine]
  have htot : ∀ x y : Patient, ¬ guillotineLe now x y = true → guillotineLe now y x = true :=
    fun x y h => lexLe3_total _ _ h
  have htrans : ∀ x y z : Patient, guillotineLe now x y = true →
      guillotineLe now y z = true → guillotineLe now x z = true :=
    fun x y z h1 h2 => lexLe3_trans _ _ _ h1 h2
  have hsorted := sorted_insertionSortBy htot htrans q
  refine ⟨perm_insertionSortBy _ q, ?_, ?_, ?_⟩
  · exact hsorted.imp (fun h hb => gLe_crisis now _ _ h hb)
  · exact hsorted.imp (fun h hab => gLe_base now _ _ h hab)
  · intro k
    apply filter_insertionSortBy
    intro a ha b hle
    rw [decide_eq_true_eq] at ha
    rw [decide_eq_false_iff_not]
    intro hb
    apply hle
    show lexLe3 (guillotineKey now a) (guillotineKey now b) = true
    rw [ha, hb]
    exact lexLe3_refl k

end ERSim

namespace ERSim

/- Component lemmas used by the wait-accrual and status-invariant proofs. -/

theorem mkPatient_arrival (cfg : Config) (pid : ℕ) (arrival duration : ℚ) :
    (mkPatient cfg pid arrival duration).arrival_time = arrival := by
  unfold mkPatient
  split
  · rfl
  · split
    · rfl
    · rfl

theorem mkPatient_wait (cfg : Config) (pid : ℕ) (arrival duration : ℚ) :
    (mkPatient cfg pid arrival duration).wait_time = 0 := by
  unfold mkPatient
  split
  · rfl
  · split
    · rfl
    · rfl

theorem mkPatient_id (cfg : Config) (pid : ℕ) (arrival duration : ℚ) :
    (mkPatient cfg pid arrival duration).id = pid := by
  unfold mkPatient
  split
  · rfl
  · split
    · rfl
    · rfl

theorem mkPatient_status (cfg : Config) (pid : ℕ) (arrival duration : ℚ) :
    (mkPatient cfg pid arrival duration).status = Status.WAITING := by
  unfold mkPatient
  split
  · rfl
  · split
    · rfl
    · rfl

theorem spawnLoop_queue_mem (cfg : Config) (n : ℕ) : ∀ (e : EREngine),
    ∀ p ∈ (spawnLoop cfg e n).queue,
      p ∈ e.queue ∨ (p.arrival_time = e.env_time ∧ p.wait_time = 0 ∧
        p.status = Status.WAITING) := by
  induction n with
  | zero => exact fun e p hp => Or.inl hp
  | succ n ih =>
    intro e p hp
    rcases ih (spawn_patient cfg e (totalCount e)) p hp with h | h
    · rcases List.mem_append.mp h with h' | h'
      · exact Or.inl h'
      · right
        rcases List.mem_singleton.mp h' with rfl
        exact ⟨mkPatient_arrival .., mkPatient_wait .., mkPatient_status ..⟩
    · exact Or.inr h

theorem admitLoop_fst_mem (cap : ℕ) (q : List Patient) : ∀ beds, ∀ p ∈ (admitLoop cap beds q).1,
    p ∈ beds ∨ ∃ x ∈ q, p = { x with status := Status.IN_BED } := by
  induction q with
  | nil => exact fun beds p hp => Or.inl hp
  | cons x rest ih =>
    intro beds p hp
    simp only [admitLoop] at hp
    by_cases h : beds.length < cap
    · rw [if_pos h] at hp
      rcases ih _ p hp with h' | ⟨y, hy, he⟩
      · rcases List.mem_append.mp h' with h'' | h''
        · exact Or.inl h''
        · exact Or.inr ⟨x, List.mem_cons_self x rest, List.mem_singleton.mp h''⟩
      · exact Or.inr ⟨y, List.mem_cons_of_mem x hy, he⟩
    · rw [if_neg h] at hp
      exact Or.inl hp

theorem admitLoop_snd_mem (cap : ℕ) (q : List Patient) : ∀ beds,
    ∀ p ∈ (admitLoop cap beds q).2, p ∈ q := by
  induction q with
  | nil => intro beds p hp; cases hp
  | cons x rest ih =>
    intro beds p hp
    simp only [admitLoop] at hp
    by_cases h : beds.length < cap
    · rw [if_pos h] at hp
      exact List.mem_cons_of_mem x (ih _ p hp)
    · rw [if_neg h] at hp
      exact hp

theorem processBeds_snd_id (pen t : ℚ) (l : List Patient) :
    ∀ p ∈ (processBeds pen t l).2, p.id ∈ l.map Patient.id := by
  induction l with
  | nil => intro p hp; cases hp
  | cons x rest ih =>
    intro p hp
    simp only [processBeds] at hp
    by_cases h : x.service_duration_raw - 1 + pen ≤ 0
    · rw [if_pos h] at hp
      simp only [List.map_cons]
      exact List.mem_cons_of_mem _ (ih p hp)
    · rw [if_neg h] at hp
      rcases List.mem_cons.mp hp with rfl | hp'
      · simp
      · simp only [List.map_cons]
        exact List.mem_cons_of_mem _ (ih p hp')

theorem sort_queue_perm (mode : String) (q : List Patient) (t : ℚ) :
    (sort_queue mode q t).Perm q := perm_insertionSortBy _ q

/-- One-step wait bookkeeping: if every queued patient's wait equals
`t − arrival` before `step(t, n)` (which holds along normal runs with hourly
steps), then after the step every still-queued patient's wait equals
`(t+1) − arrival`, and every patient newly admitted during the step holds
wait exactly `(t − arrival) + 1` — the value at the moment of admission,
frozen from then on. -/
theorem step_wait (cfg : Config) (e : EREngine) (t : ℚ) (n : ℕ)
    (hq : ∀ p ∈ e.queue, p.wait_time = t - p.arrival_time) :
    (∀ p ∈ (stepE cfg e t n).queue, p.wait_time = (t + 1) - p.arrival_time) ∧
    (∀ p ∈ (stepE cfg e t n).beds, p.id ∉ e.beds.map Patient.id →
      p.wait_time = (t - p.arrival_time) + 1) := by
  have hq2 : ∀ p ∈ (spawnLoop cfg { e with env_time := t } n).queue,
      p.wait_time = t - p.arrival_time := by
    intro p hp
    rcases spawnLoop_queue_mem cfg n _ p hp with h | ⟨ha, hw, _⟩
    · exact hq p h
    · rw [hw, ha]
      show (0 : ℚ) = t - t
      simp
  have haged : ∀ p ∈ ((spawnLoop cfg { e with env_time := t } n).queue.map agePatient),
      p.wait_time = (t - p.arrival_time) + 1 := by
    intro p hp
    rcases List.mem_map.mp hp with ⟨x, hx, rfl⟩
    show x.wait_time + 1 = (t - x.arrival_time) + 1
    rw [hq2 x hx]
  have hsorted : ∀ p ∈ sort_queue (spawnLoop cfg { e with env_time := t } n).policy_name
      ((spawnLoop cfg { e with env_time := t } n).queue.map agePatient) t,
      p.wait_time = (t - p.arrival_time) + 1 := by
    intro p hp
    exact haged p ((sort_queue_perm _ _ _).mem_iff.mp hp)
  constructor
  · intro p hp
    rw [stepE_queue] at hp
    rw [hsorted p (admitLoop_snd_mem _ _ _ p hp)]
    ring
  · intro p hp hid
    rw [stepE_beds] at hp
    rcases admitLoop_fst_mem _ _ _ p hp with h | ⟨x, hx, rfl⟩
    · have h2 := processBeds_snd_id _ _ _ p h
      rw [spawnLoop_beds] at h2
      exact absurd h2 hid
    · exact hsorted x hx

/-- Wait bookkeeping along a run with hourly steps `t0, t0+1, ...`. -/
theorem runSteps_wait (cfg : Config) : ∀ (arrs : List ℕ) (e : EREngine) (t0 : ℕ),
    (∀ p ∈ e.queue, p.wait_time = (t0 : ℚ) - p.arrival_time) →
    ∀ p ∈ (runSteps cfg e t0 arrs).queue,
      p.wait_time = ((t0 + arrs.length : ℕ) : ℚ) - p.arrival_time := by
  intro arrs
  induction arrs with
  | nil =>
    intro e t0 h p hp
    simpa using h p hp
  | cons n rest ih =>
    intro e t0 h p hp
    have h2 : ∀ x ∈ (stepE cfg e (t0 : ℚ) n).queue,
        x.wait_time = ((t0 + 1 : ℕ) : ℚ) - x.arrival_time := by
      intro x hx
      rw [(step_wait cfg e (t0 : ℚ) n h).1 x hx]
      push_cast
      ring
    have h3 := ih (stepE cfg e (t0 : ℚ) n) (t0 + 1) h2 p hp
    have heq : ((t0 + 1) + rest.length : ℕ) = t0 + (n :: rest).length := by
      simp only [List.length_cons]
      omega
    rw [← heq]
    exact h3

/-- C10: in a normal run with hourly steps 0..len−1, any patient admitted
during the next step `t' = len` that was not occupying a bed before carries
accumulated wait exactly `(t' − arrivalTime) + 1`: the aging phase covers the
whole waiting queue — the step's own arrivals included — before admission, so
a patient admitted in its arrival hour holds wait exactly 1.0, never 0. -/
theorem wait_accrual (cfg : Config) (pol : String) (rng : ℕ → ℚ) (arrs : List ℕ) (n : ℕ)
    (p : Patient)
    (hp : p ∈ (stepE cfg (runN cfg pol rng arrs) (arrs.length : ℚ) n).beds)
    (hnew : p.id ∉ (runN cfg pol rng arrs).beds.map Patient.id) :
    p.wait_time = ((arrs.length : ℚ) - p.arrival_time) + 1 := by
  have hq : ∀ x ∈ (runN cfg pol rng arrs).queue,
      x.wait_time = (arrs.length : ℚ) - x.arrival_time := by
    intro x hx
    have h2 := runSteps_wait cfg arrs (initEngine pol rng) 0
      (fun x hx => absurd hx (List.not_mem_nil x)) x hx
    rw [h2]
    push_cast
    ring
  exact (step_wait cfg (runN cfg pol rng arrs) (arrs.length : ℚ) n hq).2 p hp hnew

/-- Witness for C10: a patient arriving at t = 0 and admitted during step 0
has accumulated wait exactly 1.0 at admission. -/
theorem wait_accrual_witness :
    (⟨0, 0, 5, 1, none, Status.IN_BED, "SHORT", 3⟩ : Patient) ∈
      (stepE defaultConfig (runN defaultConfig "FCFS" rngFive [])
        ((([] : List ℕ).length : ℕ) : ℚ) 1).beds ∧
    (⟨0, 0, 5, 1, none, Status.IN_BED, "SHORT", 3⟩ : Patient).id ∉
      (runN defaultConfig "FCFS" rngFive []).beds.map Patient.id ∧
    (⟨0, 0, 5, 1, none, Status.IN_BED, "SHORT", 3⟩ : Patient).wait_time =
      (((([] : List ℕ).length : ℕ) : ℚ) -
        (⟨0, 0, 5, 1, none, Status.IN_BED, "SHORT", 3⟩ : Patient).arrival_time) + 1 :=
  ⟨by decide, by decide,
    wait_accrual defaultConfig "FCFS" rngFive [] 1
      ⟨0, 0, 5, 1, none, Status.IN_BED, "SHORT", 3⟩ (by decide) (by decide)⟩

end ERSim

namespace ERSim

theorem processBeds_fst_id (pen t : ℚ) (l : List Patient) :
    ∀ p ∈ (processBeds pen t l).1, p.id ∈ l.map Patient.id := by
  induction l with
  | nil => intro p hp; cases hp
  | cons x rest ih =>
    intro p hp
    simp only [processBeds] at hp
    by_cases h : x.service_duration_raw - 1 + pen ≤ 0
    · rw [if_pos h] at hp
      rcases List.mem_cons.mp hp with rfl | hp'
      · simp
      · simp only [List.map_cons]
        exact List.mem_cons_of_mem _ (ih p hp')
    · rw [if_neg h] at hp
      simp only [List.map_cons]
      exact List.mem_cons_of_mem _ (ih p hp)

theorem processBeds_fst_status (pen t : ℚ) (l : List Patient) :
    ∀ p ∈ (processBeds pen t l).1, p.status = Status.DISCHARGED := by
  induction l with
  | nil => intro p hp; cases hp
  | cons x rest ih =>
    intro p hp
    simp only [processBeds] at hp
    by_cases h : x.service_duration_raw - 1 + pen ≤ 0
    · rw [if_pos h] at hp
      rcases List.mem_cons.mp hp with rfl | hp'
      · rfl
      · exact ih p hp'
    · rw [if_neg h] at hp
      exact ih p hp

theorem processBeds_snd_status (pen t : ℚ) (l : List Patient) :
    ∀ p ∈ (processBeds pen t l).2, ∃ x ∈ l, p.status = x.status := by
  induction l with
  | nil => intro p hp; cases hp
  | cons x rest ih =>
    intro p hp
    simp only [processBeds] at hp
    by_cases h : x.service_duration_raw - 1 + pen ≤ 0
    · rw [if_pos h] at hp
      rcases ih p hp with ⟨y, hy, he⟩
      exact ⟨y, List.mem_cons_of_mem x hy, he⟩
    · rw [if_neg h] at hp
      rcases List.mem_cons.mp hp with rfl | hp'
      · exact ⟨x, List.mem_cons_self x rest, rfl⟩
      · rcases ih p hp' with ⟨y, hy, he⟩
        exact ⟨y, List.mem_cons_of_mem x hy, he⟩

theorem totalCount_spawn (cfg : Config) (e : EREngine) (pid : ℕ) :
    totalCount (spawn_patient cfg e pid) = totalCount e + 1 := by
  simp only [totalCount, spawn_patient, List.length_append, List.length_singleton]
  omega

theorem totalCount_spawnLoop (cfg : Config) (n : ℕ) : ∀ e : EREngine,
    totalCount (spawnLoop cfg e n) = totalCount e + n := by
  induction n with
  | zero => intro e; rfl
  | succ n ih =>
    intro e
    have h2 := ih (spawn_patient cfg e (totalCount e))
    rw [totalCount_spawn] at h2
    have : spawnLoop cfg e (n + 1) = spawnLoop cfg (spawn_patient cfg e (totalCount e)) n := rfl
    rw [this, h2]
    omega

theorem admitLoop_length_sum (cap : ℕ) (q : List Patient) : ∀ beds : List Patient,
    (admitLoop cap beds q).1.length + (admitLoop cap beds q).2.length =
      beds.length + q.length := by
  induction q with
  | nil => intro beds; simp [admitLoop]
  | cons x rest ih =>
    intro beds
    simp only [admitLoop]
    by_cases h : beds.length < cap
    · rw [if_pos h]
      rw [ih]
      simp only [List.length_append, List.length_singleton, List.length_cons,
        List.length_nil]
      omega
    · rw [if_neg h]

theorem processBeds_length_sum (pen t : ℚ) (l : List Patient) :
    (processBeds pen t l).1.length + (processBeds pen t l).2.length = l.length := by
  induction l with
  | nil => simp [processBeds]
  | cons x rest ih =>
    simp only [processBeds]
    by_cases h : x.service_duration_raw - 1 + pen ≤ 0
    · rw [if_pos h]
      simp only [List.length_cons]
      omega
    · rw [if_neg h]
      simp only [List.length_cons]
      omega

theorem totalCount_stepE (cfg : Config) (e : EREngine) (t : ℚ) (n : ℕ) :
    totalCount (stepE cfg e t n) = totalCount e + n := by
  have hsp := totalCount_spawnLoop cfg n { e with env_time := t }
  have h1 := admitLoop_length_sum cfg.capacity_beds
      (sort_queue (spawnLoop cfg { e with env_time := t } n).policy_name
        ((spawnLoop cfg { e with env_time := t } n).queue.map agePatient) t)
      ((processBeds
        (if cfg.capacity_beds < (spawnLoop cfg { e with env_time := t } n).beds.length
          then cfg.congestion_penalty else 0) t
        (spawnLoop cfg { e with env_time := t } n).beds).2)
  have h2 := processBeds_length_sum
      (if cfg.capacity_beds < (spawnLoop cfg { e with env_time := t } n).beds.length
        then cfg.congestion_penalty else 0) t
      (spawnLoop cfg { e with env_time := t } n).beds
  have h3 := (sort_queue_perm (spawnLoop cfg { e with env_time := t } n).policy_name
      ((spawnLoop cfg { e with env_time := t } n).queue.map agePatient) t).length_eq
  rw [List.length_map] at h3
  unfold totalCount at hsp ⊢
  rw [stepE_completed, stepE_beds, stepE_queue]
  simp only [List.length_append] at *
  omega

theorem spawn_allIds_perm (cfg : Config) (e : EREngine) (pid : ℕ) :
    (allIds (spawn_patient cfg e pid)).Perm (pid :: allIds e) := by
  unfold allIds allPatients spawn_patient
  simp only [List.map_append, List.map_cons, List.map_nil, mkPatient_id]
  rw [List.append_assoc, List.append_assoc, List.append_assoc, List.singleton_append]
  exact List.perm_middle

theorem spawnLoop_queue_mem_id (cfg : Config) (n : ℕ) : ∀ e, ∀ p ∈ (spawnLoop cfg e n).queue,
    p ∈ e.queue ∨ totalCount e ≤ p.id := by
  induction n with
  | zero => exact fun e p hp => Or.inl hp
  | succ n ih =>
    intro e p hp
    rcases ih _ p hp with h | h
    · rcases List.mem_append.mp h with h' | h'
      · exact Or.inl h'
      · rcases List.mem_singleton.mp h' with rfl
        right
        rw [mkPatient_id]
    · right
      rw [totalCount_spawn] at h
      omega

theorem aged_ids (l : List Patient) :
    (l.map agePatient).map Patient.id = l.map Patient.id := by
  rw [List.map_map]
  rfl

theorem admitLoop_ids_perm (cap : ℕ) (q : List Patient) : ∀ beds,
    ((admitLoop cap beds q).1.map Patient.id ++
      (admitLoop cap beds q).2.map Patient.id).Perm
      (beds.map Patient.id ++ q.map Patient.id) := by
  induction q with
  | nil => intro beds; simp [admitLoop]
  | cons x rest ih =>
    intro beds
    simp only [admitLoop]
    by_cases h : beds.length < cap
    · rw [if_pos h]
      refine (ih (beds ++ [{ x with status := Status.IN_BED }])).trans ?_
      simp only [List.map_append, List.map_cons, List.map_nil]
      rw [List.append_assoc]
      exact List.Perm.refl _
    · rw [if_neg h]

theorem processBeds_ids_perm (pen t : ℚ) (l : List Patient) :
    ((processBeds pen t l).1.map Patient.id ++
      (processBeds pen t l).2.map Patient.id).Perm (l.map Patient.id) := by
  induction l with
  | nil => simp [processBeds]
  | cons x rest ih =>
    simp only [processBeds]
    by_cases h : x.service_duration_raw - 1 + pen ≤ 0
    · rw [if_pos h]
      simp only [List.map_cons, List.cons_append]
      exact ih.cons x.id
    · rw [if_neg h]
      simp only [List.map_cons]
      exact List.perm_middle.trans (ih.cons x.id)

end ERSim

namespace ERSim

theorem step_ids_abstract (q' b' p1 p2 s ag qs bs cs : List ℕ)
    (hadm : (b' ++ q').Perm (p2 ++ s))
    (hpb : (p1 ++ p2).Perm bs)
    (hs : s.Perm ag)
    (hag : ag = qs) :
    ((q' ++ b') ++ (cs ++ p1)).Perm ((qs ++ bs) ++ cs) := by
  rw [hag] at hs
  rw [← Multiset.coe_eq_coe] at hadm hpb hs ⊢
  simp only [← Multiset.coe_add] at hadm hpb ⊢
  have h1 : (q' : Multiset ℕ) + (b' : Multiset ℕ) +
      ((cs : Multiset ℕ) + (p1 : Multiset ℕ)) =
      ((b' : Multiset ℕ) + (q' : Multiset ℕ)) +
      ((p1 : Multiset ℕ) + (cs : Multiset ℕ)) := by abel
  rw [h1, hadm, hs]
  have h2 : (p2 : Multiset ℕ) + (qs : Multiset ℕ) +
      ((p1 : Multiset ℕ) + (cs : Multiset ℕ)) =
      (qs : Multiset ℕ) + ((p1 : Multiset ℕ) + (p2 : Multiset ℕ)) +
      (cs : Multiset ℕ) := by abel
  rw [h2, hpb]

theorem allIds_stepE_perm (cfg : Config) (e : EREngine) (t : ℚ) (n : ℕ) :
    (allIds (stepE cfg e t n)).Perm (allIds (spawnLoop cfg { e with env_time := t } n)) := by
  unfold allIds allPatients
  rw [stepE_queue, stepE_beds, stepE_completed]
  simp only [List.map_append]
  exact step_ids_abstract _ _ _ _ _ _ _ _ _
    (admitLoop_ids_perm _ _ _) (processBeds_ids_perm _ _ _)
    ((sort_queue_perm _ _ _).map _) (aged_ids _)

theorem idsOk_spawn (cfg : Config) (e : EREngine) (h : idsOk e) :
    idsOk (spawn_patient cfg e (totalCount e)) := by
  obtain ⟨hnd, hbd⟩ := h
  have hp := spawn_allIds_perm cfg e (totalCount e)
  have hfresh : totalCount e ∉ allIds e := by
    intro hmem
    rcases List.mem_map.mp hmem with ⟨q, hq, hqe⟩
    exact absurd (hqe ▸ hbd q hq) (lt_irrefl _)
  constructor
  · exact hp.nodup_iff.mpr (List.nodup_cons.mpr ⟨hfresh, hnd⟩)
  · intro p hp'
    rw [totalCount_spawn]
    have hid : p.id ∈ allIds (spawn_patient cfg e (totalCount e)) :=
      List.mem_map_of_mem _ hp'
    rcases List.mem_cons.mp (hp.mem_iff.mp hid) with he | hmem
    · omega
    · rcases List.mem_map.mp hmem with ⟨q, hq, hqe⟩
      have hlt := hbd q hq
      omega

theorem idsOk_spawnLoop (cfg : Config) (n : ℕ) : ∀ e, idsOk e → idsOk (spawnLoop cfg e n) := by
  induction n with
  | zero => exact fun e h => h
  | succ n ih => exact fun e h => ih _ (idsOk_spawn cfg e h)

theorem idsOk_step (cfg : Config) (e : EREngine) (t : ℚ) (n : ℕ) (h : idsOk e) :
    idsOk (stepE cfg e t n) := by
  have hsp : idsOk (spawnLoop cfg { e with env_time := t } n) :=
    idsOk_spawnLoop cfg n { e with env_time := t } h
  have hperm := allIds_stepE_perm cfg e t n
  constructor
  · exact hperm.nodup_iff.mpr hsp.1
  · intro p hp
    have hid : p.id ∈ allIds (stepE cfg e t n) := List.mem_map_of_mem _ hp
    have hid2 := hperm.mem_iff.mp hid
    rcases List.mem_map.mp hid2 with ⟨q, hq, hqe⟩
    have hlt := hsp.2 q hq
    have htc := totalCount_spawnLoop cfg n { e with env_time := t }
    rw [htc] at hlt
    rw [totalCount_stepE]
    have htc2 : totalCount { e with env_time := t } = totalCount e := rfl
    rw [htc2] at hlt
    omega

theorem statusInv_step (cfg : Config) (e : EREngine) (t : ℚ) (n : ℕ) (h : statusInv e) :
    statusInv (stepE cfg e t n) := by
  obtain ⟨hq, hb, hc⟩ := h
  have hq2 : ∀ p ∈ (spawnLoop cfg { e with env_time := t } n).queue,
      p.status = Status.WAITING := by
    intro p hp
    rcases spawnLoop_queue_mem cfg n _ p hp with h' | ⟨_, _, hst⟩
    · exact hq p h'
    · exact hst
  have hsorted : ∀ p ∈ sort_queue (spawnLoop cfg { e with env_time := t } n).policy_name
      ((spawnLoop cfg { e with env_time := t } n).queue.map agePatient) t,
      p.status = Status.WAITING := by
    intro p hp
    have h2 := (sort_queue_perm _ _ _).mem_iff.mp hp
    rcases List.mem_map.mp h2 with ⟨x, hx, rfl⟩
    exact hq2 x hx
  refine ⟨?_, ?_, ?_⟩
  · intro p hp
    rw [stepE_queue] at hp
    exact hsorted p (admitLoop_snd_mem _ _ _ p hp)
  · intro p hp
    rw [stepE_beds] at hp
    rcases admitLoop_fst_mem _ _ _ p hp with h' | ⟨x, hx, rfl⟩
    · rcases processBeds_snd_status _ _ _ p h' with ⟨y, hy, he⟩
      rw [he]
      rw [spawnLoop_beds] at hy
      exact hb y hy
    · rfl
  · intro p hp
    rw [stepE_completed] at hp
    rcases List.mem_append.mp hp with h' | h'
    · rw [spawnLoop_completed] at h'
      exact hc p h'
    · exact processBeds_fst_status _ _ _ p h'

theorem statusInv_init (pol : String) (rng : ℕ → ℚ) : statusInv (initEngine pol rng) :=
  ⟨fun p hp => absurd hp (List.not_mem_nil p),
   fun p hp => absurd hp (List.not_mem_nil p),
   fun p hp => absurd hp (List.not_mem_nil p)⟩

theorem idsOk_init (pol : String) (rng : ℕ → ℚ) : idsOk (initEngine pol rng) :=
  ⟨List.nodup_nil, fun p hp => absurd hp (List.not_mem_nil p)⟩

theorem statusInv_runSteps (cfg : Config) : ∀ (arrs : List ℕ) (e : EREngine) (t0 : ℕ),
    statusInv e → statusInv (runSteps cfg e t0 arrs) := by
  intro arrs
  induction arrs with
  | nil => exact fun e t0 h => h
  | cons n rest ih => exact fun e t0 h => ih _ _ (statusInv_step cfg e _ n h)

theorem idsOk_runSteps (cfg : Config) : ∀ (arrs : List ℕ) (e : EREngine) (t0 : ℕ),
    idsOk e → idsOk (runSteps cfg e t0 arrs) := by
  intro arrs
  induction arrs with
  | nil => exact fun e t0 h => h
  | cons n rest ih => exact fun e t0 h => ih _ _ (idsOk_step cfg e _ n h)

theorem stepE_queue_ids (cfg : Config) (e : EREngine) (t : ℚ) (n : ℕ) :
    ∀ p ∈ (stepE cfg e t n).queue,
      p.id ∈ e.queue.map Patient.id ∨ totalCount e ≤ p.id := by
  intro p hp
  rw [stepE_queue] at hp
  have h1 := admitLoop_snd_mem _ _ _ p hp
  have h2 := (sort_queue_perm _ _ _).mem_iff.mp h1
  rcases List.mem_map.mp h2 with ⟨x, hx, rfl⟩
  rcases spawnLoop_queue_mem_id cfg n _ x hx with h' | h'
  · exact Or.inl
      ((List.mem_map_of_mem Patient.id h' : Patient.id x ∈ e.queue.map Patient.id))
  · exact Or.inr h'

theorem stepE_beds_ids (cfg : Config) (e : EREngine) (t : ℚ) (n : ℕ) :
    ∀ p ∈ (stepE cfg e t n).beds,
      p.id ∈ e.beds.map Patient.id ∨ p.id ∈ e.queue.map Patient.id ∨
        totalCount e ≤ p.id := by
  intro p hp
  rw [stepE_beds] at hp
  rcases admitLoop_fst_mem _ _ _ p hp with h' | ⟨x, hx, rfl⟩
  · have h2 := processBeds_snd_id _ _ _ p h'
    rw [spawnLoop_beds] at h2
    exact Or.inl h2
  · have h2 := (sort_queue_perm _ _ _).mem_iff.mp hx
    rcases List.mem_map.mp h2 with ⟨y, hy, rfl⟩
    rcases spawnLoop_queue_mem_id cfg n _ y hy with h'' | h''
    · exact Or.inr (Or.inl
        ((List.mem_map_of_mem Patient.id h'' : Patient.id y ∈ e.queue.map Patient.id)))
    · exact Or.inr (Or.inr h'')

theorem stepE_completed_ids (cfg : Config) (e : EREngine) (t : ℚ) (n : ℕ) :
    ∀ p ∈ (stepE cfg e t n).completed,
      p.id ∈ e.completed.map Patient.id ∨ p.id ∈ e.beds.map Patient.id := by
  intro p hp
  rw [stepE_completed] at hp
  rcases List.mem_append.mp hp with h' | h'
  · rw [spawnLoop_completed] at h'
    exact Or.inl (List.mem_map_of_mem _ h')
  · have h2 := processBeds_fst_id _ _ _ p h'
    rw [spawnLoop_beds] at h2
    exact Or.inr h2

theorem ids_disjoint (e : EREngine) (h : (allIds e).Nodup) :
    (∀ a ∈ e.queue, ∀ b ∈ e.beds, a.id ≠ b.id) ∧
    (∀ a ∈ e.queue, ∀ b ∈ e.completed, a.id ≠ b.id) ∧
    (∀ a ∈ e.beds, ∀ b ∈ e.completed, a.id ≠ b.id) := by
  unfold allIds allPatients at h
  rw [List.map_append, List.map_append] at h
  rcases List.nodup_append.mp h with ⟨h1, _, h13⟩
  rcases List.nodup_append.mp h1 with ⟨_, _, h12⟩
  refine ⟨?_, ?_, ?_⟩
  · intro a ha b hb he
    exact h12 (List.mem_map_of_mem _ ha)
      (by rw [he]; exact List.mem_map_of_mem _ hb)
  · intro a ha b hb he
    exact h13 (List.mem_append_left _ (List.mem_map_of_mem _ ha))
      (by rw [he]; exact List.mem_map_of_mem _ hb)
  · intro a ha b hb he
    exact h13 (List.mem_append_right _ (List.mem_map_of_mem _ ha))
      (by rw [he]; exact List.mem_map_of_mem _ hb)

theorem step_legal_aux (cfg : Config) (e : EREngine) (t : ℚ) (n : ℕ)
    (hs : statusInv e) (hids : idsOk e) (p p' : Patient)
    (hp : p ∈ allPatients e) (hp' : p' ∈ allPatients (stepE cfg e t n))
    (heq : p.id = p'.id) : legalStatus p.status p'.status = true := by
  obtain ⟨hsq, hsb, hsc⟩ := hs
  obtain ⟨hsq', hsb', hsc'⟩ := statusInv_step cfg e t n ⟨hsq, hsb, hsc⟩
  obtain ⟨hnd, hbd⟩ := hids
  obtain ⟨hd1, hd2, hd3⟩ := ids_disjoint e hnd
  unfold allPatients at hp hp'
  rcases List.mem_append.mp hp with hpqb | hpc
  · rcases List.mem_append.mp hpqb with hpq | hpb
    · -- p queued, status WAITING
      rcases List.mem_append.mp hp' with hp'qb | hp'c
      · rcases List.mem_append.mp hp'qb with hp'q | hp'b
        · rw [hsq p hpq, hsq' p' hp'q]
          rfl
        · rw [hsq p hpq, hsb' p' hp'b]
          rfl
      · rcases stepE_completed_ids cfg e t n p' hp'c with hcc | hcb
        · rcases List.mem_map.mp hcc with ⟨b, hb, hbe⟩
          exact absurd (heq.trans hbe.symm) (hd2 p hpq b hb)
        · rcases List.mem_map.mp hcb with ⟨b, hb, hbe⟩
          exact absurd (heq.trans hbe.symm) (hd1 p hpq b hb)
    · -- p in a bed, status IN_BED
      rcases List.mem_append.mp hp' with hp'qb | hp'c
      · rcases List.mem_append.mp hp'qb with hp'q | hp'b
        · rcases stepE_queue_ids cfg e t n p' hp'q with hqq | hge
          · rcases List.mem_map.mp hqq with ⟨a, ha, hae⟩
            exact absurd (hae.trans heq.symm) (fun h2 => hd1 a ha p hpb h2)
          · have hm : p ∈ allPatients e := by
              unfold allPatients
              exact List.mem_append_left _ (List.mem_append_right _ hpb)
            have := hbd p hm
            omega
        · rw [hsb p hpb, hsb' p' hp'b]
          rfl
      · rw [hsb p hpb, hsc' p' hp'c]
        rfl
  · -- p completed, status DISCHARGED
    rcases List.mem_append.mp hp' with hp'qb | hp'c
    · rcases List.mem_append.mp hp'qb with hp'q | hp'b
      · rcases stepE_queue_ids cfg e t n p' hp'q with hqq | hge
        · rcases List.mem_map.mp hqq with ⟨a, ha, hae⟩
          exact absurd (hae.trans heq.symm) (fun h2 => hd2 a ha p hpc h2)
        · have hm : p ∈ allPatients e := List.mem_append_right _ hpc
          have := hbd p hm
          omega
      · rcases stepE_beds_ids cfg e t n p' hp'b with hbb | hbq | hge
        · rcases List.mem_map.mp hbb with ⟨b, hb, hbe⟩
          exact absurd (heq.trans hbe.symm) (hd3 b hb p hpc ∘ Eq.symm)
        · rcases List.mem_map.mp hbq with ⟨a, ha, hae⟩
          exact absurd (hae.trans heq.symm) (fun h2 => hd2 a ha p hpc h2)
        · have hm : p ∈ allPatients e := List.mem_append_right _ hpc
          have := hbd p hm
          omega
    · rw [hsc p hpc, hsc' p' hp'c]
      rfl

end ERSim

namespace ERSim

/-- Counterexample to C7 as stated: in a warm-started run (the `run_comparison`
initialization), the injected patient is placed into a bed with its status
still WAITING, and on the first step in which its duration runs out its status
jumps directly from WAITING to DISCHARGED — a transition that skips IN_BED,
which the claimed invariant forbids. -/
theorem warm_start_skips_in_bed :
    ((warmStart defaultConfig (initEngine "FCFS" rngOne) 1).beds.map
      (fun p => (p.id, p.status)) = [(999, Status.WAITING)]) ∧
    ((stepE defaultConfig (warmStart defaultConfig (initEngine "FCFS" rngOne) 1) 0 0).completed.map
      (fun p => (p.id, p.status)) = [(999, Status.DISCHARGED)]) ∧
    legalStatus Status.WAITING Status.DISCHARGED = false := by
  exact ⟨by decide, by decide, by decide⟩

/-- C7 (amended): along every run by normal stepping from the fresh engine
(no warm start), each patient's status moves only along
WAITING → IN_BED → DISCHARGED across any one step — it may stay, or advance by
exactly one stage, never skip a stage or move backwards. Warm-start-injected
patients violate this: they occupy beds with status WAITING and then jump
straight to DISCHARGED (see the counterexample). -/
theorem status_transitions_normal (cfg : Config) (pol : String) (rng : ℕ → ℚ)
    (arrs : List ℕ) (t : ℚ) (n : ℕ) (p p' : Patient)
    (hp : p ∈ allPatients (runN cfg pol rng arrs))
    (hp' : p' ∈ allPatients (stepE cfg (runN cfg pol rng arrs) t n))
    (heq : p.id = p'.id) :
    legalStatus p.status p'.status = true :=
  step_legal_aux cfg (runN cfg pol rng arrs) t n
    (statusInv_runSteps cfg arrs _ 0 (statusInv_init pol rng))
    (idsOk_runSteps cfg arrs _ 0 (idsOk_init pol rng))
    p p' hp hp' heq

/-- Witness for C7's amended theorem: the patient admitted in step 0 of a
1-arrival FCFS run stays IN_BED over the next step, a legal transition. -/
theorem status_transitions_normal_witness :
    (⟨0, 0, 5, 1, none, Status.IN_BED, "SHORT", 3⟩ : Patient) ∈
      allPatients (runN defaultConfig "FCFS" rngFive [1]) ∧
    (⟨0, 0, 4, 1, none, Status.IN_BED, "SHORT", 3⟩ : Patient) ∈
      allPatients (stepE defaultConfig (runN defaultConfig "FCFS" rngFive [1]) 1 0) ∧
    (⟨0, 0, 5, 1, none, Status.IN_BED, "SHORT", 3⟩ : Patient).id =
      (⟨0, 0, 4, 1, none, Status.IN_BED, "SHORT", 3⟩ : Patient).id ∧
    legalStatus (⟨0, 0, 5, 1, none, Status.IN_BED, "SHORT", 3⟩ : Patient).status
      (⟨0, 0, 4, 1, none, Status.IN_BED, "SHORT", 3⟩ : Patient).status = true :=
  ⟨by decide, by decide, rfl,
    status_transitions_normal defaultConfig "FCFS" rngFive [1] 1 0
      ⟨0, 0, 5, 1, none, Status.IN_BED, "SHORT", 3⟩
      ⟨0, 0, 4, 1, none, Status.IN_BED, "SHORT", 3⟩
      (by decide) (by decide) rfl⟩

end ERSim

namespace ERSim

theorem pk_lt_le_asymm (a b : Patient) (h1 : pkLt a b) (h2 : pkLe b a) : False := by
  unfold pkLt at h1
  unfold pkLe at h2
  rcases h1 with h1 | ⟨e1, h1⟩
  · rcases h2 with h2 | ⟨e2, _⟩
    · exact absurd (h1.trans h2) (lt_irrefl _)
    · rw [e2] at h1
      exact absurd h1 (lt_irrefl _)
  · rcases h2 with h2 | ⟨_, h2⟩
    · rw [e1] at h2
      exact absurd h2 (lt_irrefl _)
    · omega

theorem pkLe_key_left (b b' a : Patient) (h1 : b.arrival_time = b'.arrival_time)
    (h2 : b.id = b'.id) (h : pkLe b a) : pkLe b' a := by
  unfold pkLe at *
  rw [← h1, ← h2]
  exact h

theorem pkLe_key_right (b a a' : Patient) (h1 : a.arrival_time = a'.arrival_time)
    (h2 : a.id = a'.id) (h : pkLe b a) : pkLe b a' := by
  unfold pkLe at *
  rw [← h1, ← h2]
  exact h

theorem processBeds_fst_src (pen t : ℚ) (l : List Patient) :
    ∀ p ∈ (processBeds pen t l).1, ∃ x ∈ l,
      p.arrival_time = x.arrival_time ∧ p.id = x.id := by
  induction l with
  | nil => intro p hp; cases hp
  | cons x rest ih =>
    intro p hp
    simp only [processBeds] at hp
    by_cases h : x.service_duration_raw - 1 + pen ≤ 0
    · rw [if_pos h] at hp
      rcases List.mem_cons.mp hp with rfl | hp'
      · exact ⟨x, List.mem_cons_self x rest, rfl, rfl⟩
      · rcases ih p hp' with ⟨y, hy, he⟩
        exact ⟨y, List.mem_cons_of_mem x hy, he⟩
    · rw [if_neg h] at hp
      rcases ih p hp with ⟨y, hy, he⟩
      exact ⟨y, List.mem_cons_of_mem x hy, he⟩

theorem processBeds_snd_src (pen t : ℚ) (l : List Patient) :
    ∀ p ∈ (processBeds pen t l).2, ∃ x ∈ l,
      p.arrival_time = x.arrival_time ∧ p.id = x.id := by
  induction l with
  | nil => intro p hp; cases hp
  | cons x rest ih =>
    intro p hp
    simp only [processBeds] at hp
    by_cases h : x.service_duration_raw - 1 + pen ≤ 0
    · rw [if_pos h] at hp
      rcases ih p hp with ⟨y, hy, he⟩
      exact ⟨y, List.mem_cons_of_mem x hy, he⟩
    · rw [if_neg h] at hp
      rcases List.mem_cons.mp hp with rfl | hp'
      · exact ⟨x, List.mem_cons_self x rest, rfl, rfl⟩
      · rcases ih p hp' with ⟨y, hy, he⟩
        exact ⟨y, List.mem_cons_of_mem x hy, he⟩

theorem stepE_policy (cfg : Config) (e : EREngine) (t : ℚ) (n : ℕ) :
    (stepE cfg e t n).policy_name = e.policy_name :=
  spawnLoop_policy cfg { e with env_time := t } n

theorem spawnLoop_queue_pairwise (cfg : Config) (n : ℕ) : ∀ e : EREngine,
    e.queue.Pairwise pkLe →
    (∀ p ∈ e.queue, p.arrival_time < e.env_time ∨
      (p.arrival_time = e.env_time ∧ p.id < totalCount e)) →
    (spawnLoop cfg e n).queue.Pairwise pkLe := by
  induction n with
  | zero => exact fun e h _ => h
  | succ n ih =>
    intro e hq hb
    apply ih (spawn_patient cfg e (totalCount e))
    · show (e.queue ++ [mkPatient cfg (totalCount e) e.env_time (e.rng e.draws)]).Pairwise pkLe
      rw [List.pairwise_append]
      refine ⟨hq, List.pairwise_singleton _ _, ?_⟩
      intro a ha b hb'
      rcases List.mem_singleton.mp hb' with rfl
      rcases hb a ha with h' | ⟨h1, h2⟩
      · left
        rw [mkPatient_arrival]
        exact h'
      · right
        rw [mkPatient_arrival, mkPatient_id]
        exact ⟨h1, le_of_lt h2⟩
    · intro p hp
      rcases List.mem_append.mp hp with h' | h'
      · rcases hb p h' with h'' | ⟨h1, h2⟩
        · left
          exact h''
        · right
          rw [totalCount_spawn]
          exact ⟨h1, by omega⟩
      · rcases List.mem_singleton.mp h' with rfl
        right
        rw [totalCount_spawn, mkPatient_arrival, mkPatient_id]
        exact ⟨rfl, by omega⟩

theorem fcfs_le_iff (L : ℕ) (t : ℚ) (x y : Patient) :
    (lexLe3 (get_sort_key "FCFS" L t x) (get_sort_key "FCFS" L t y) = true) ↔
      x.arrival_time ≤ y.arrival_time := by
  have hx : get_sort_key "FCFS" L t x = (0, x.arrival_time, 0) := by
    simp [get_sort_key]
  have hy : get_sort_key "FCFS" L t y = (0, y.arrival_time, 0) := by
    simp [get_sort_key]
  rw [hx, hy]
  unfold lexLe3
  rw [decide_eq_true_eq]
  constructor
  · intro h
    rcases h with h | ⟨_, h⟩
    · exact absurd h (lt_irrefl (0 : ℚ))
    · rcases h with h | ⟨h1, _⟩
      · exact le_of_lt h
      · exact le_of_eq h1
  · intro h
    rcases lt_or_eq_of_le h with h' | h'
    · exact Or.inr ⟨rfl, Or.inl h'⟩
    · exact Or.inr ⟨rfl, Or.inr ⟨h', le_refl (0 : ℚ)⟩⟩

theorem admitLoop_snd_pairwise (cap : ℕ) (q : List Patient) : ∀ beds,
    q.Pairwise pkLe → (admitLoop cap beds q).2.Pairwise pkLe := by
  induction q with
  | nil => intro beds _; exact List.Pairwise.nil
  | cons x rest ih =>
    intro beds hq
    simp only [admitLoop]
    by_cases h : beds.length < cap
    · rw [if_pos h]
      exact ih _ (List.pairwise_cons.mp hq).2
    · rw [if_neg h]
      exact hq

theorem admitLoop_g (cap : ℕ) (q : List Patient) : ∀ beds,
    q.Pairwise pkLe →
    (∀ b ∈ beds, ∀ a ∈ q, pkLe b a) →
    ∀ b ∈ (admitLoop cap beds q).1, ∀ a ∈ (admitLoop cap beds q).2, pkLe b a := by
  induction q with
  | nil => intro beds _ _ b _ a ha; cases ha
  | cons x rest ih =>
    intro beds hq hba
    simp only [admitLoop]
    by_cases h : beds.length < cap
    · rw [if_pos h]
      rcases List.pairwise_cons.mp hq with ⟨hx, hrest⟩
      apply ih _ hrest
      intro b hb a ha
      rcases List.mem_append.mp hb with h' | h'
      · exact hba b h' a (List.mem_cons_of_mem x ha)
      · rcases List.mem_singleton.mp h' with rfl
        exact hx a ha
    · rw [if_neg h]
      intro b hb a ha
      exact hba b hb a ha

end ERSim

namespace ERSim

theorem stepE_src (cfg : Config) (e : EREngine) (t : ℚ) (n : ℕ) :
    ∀ p ∈ allPatients (stepE cfg e t n),
      (∃ x ∈ allPatients e, p.arrival_time = x.arrival_time ∧ p.id = x.id) ∨
        p.arrival_time = t := by
  intro p hp
  unfold allPatients at hp
  rcases List.mem_append.mp hp with hqb | hc
  · rcases List.mem_append.mp hqb with hq | hb
    · rw [stepE_queue] at hq
      have h2 := (sort_queue_perm _ _ _).mem_iff.mp (admitLoop_snd_mem _ _ _ p hq)
      rcases List.mem_map.mp h2 with ⟨z, hz, rfl⟩
      rcases spawnLoop_queue_mem cfg n _ z hz with h' | ⟨ha, _, _⟩
      · exact Or.inl ⟨z, List.mem_append_left _ (List.mem_append_left _ h'), rfl, rfl⟩
      · exact Or.inr ha
    · rw [stepE_beds] at hb
      rcases admitLoop_fst_mem _ _ _ p hb with h' | ⟨z, hz, rfl⟩
      · rcases processBeds_snd_src _ _ _ p h' with ⟨x, hx, he⟩
        rw [spawnLoop_beds] at hx
        exact Or.inl ⟨x, List.mem_append_left _ (List.mem_append_right _ hx), he⟩
      · have h2 := (sort_queue_perm _ _ _).mem_iff.mp hz
        rcases List.mem_map.mp h2 with ⟨y, hy, rfl⟩
        rcases spawnLoop_queue_mem cfg n _ y hy with h'' | ⟨ha, _, _⟩
        · exact Or.inl ⟨y, List.mem_append_left _ (List.mem_append_left _ h''), rfl, rfl⟩
        · exact Or.inr ha
  · rw [stepE_completed] at hc
    rcases List.mem_append.mp hc with h' | h'
    · rw [spawnLoop_completed] at h'
      exact Or.inl ⟨p, List.mem_append_right _ h', rfl, rfl⟩
    · rcases processBeds_fst_src _ _ _ p h' with ⟨x, hx, he⟩
      rw [spawnLoop_beds] at hx
      exact Or.inl ⟨x, List.mem_append_left _ (List.mem_append_right _ hx), he⟩

/-- One FCFS step preserves the fairness bundle: a pkLe-sorted queue, and
every occupant or completed patient pkLe-below every waiting patient. -/
theorem step_fcfs (cfg : Config) (e : EREngine) (t : ℚ) (n : ℕ)
    (hpol : e.policy_name = "FCFS")
    (w1 : e.queue.Pairwise pkLe)
    (w2 : ∀ p ∈ allPatients e, p.arrival_time < t)
    (w3 : ∀ b, (b ∈ e.beds ∨ b ∈ e.completed) → ∀ a ∈ e.queue, pkLe b a) :
    (stepE cfg e t n).queue.Pairwise pkLe ∧
    (∀ b, (b ∈ (stepE cfg e t n).beds ∨ b ∈ (stepE cfg e t n).completed) →
      ∀ a ∈ (stepE cfg e t n).queue, pkLe b a) := by
  have hpol2 : (spawnLoop cfg { e with env_time := t } n).policy_name = "FCFS" := by
    rw [spawnLoop_policy]
    exact hpol
  have hq2 : (spawnLoop cfg { e with env_time := t } n).queue.Pairwise pkLe := by
    apply spawnLoop_queue_pairwise cfg n { e with env_time := t } w1
    intro p hp
    left
    exact w2 p (List.mem_append_left _ (List.mem_append_left _ hp))
  have hq2src : ∀ p ∈ (spawnLoop cfg { e with env_time := t } n).queue,
      p ∈ e.queue ∨ p.arrival_time = t := by
    intro p hp
    rcases spawnLoop_queue_mem cfg n _ p hp with h | ⟨ha, _, _⟩
    · exact Or.inl h
    · exact Or.inr ha
  have haged_pw : ((spawnLoop cfg { e with env_time := t } n).queue.map agePatient).Pairwise
      pkLe := by
    rw [List.pairwise_map]
    exact hq2.imp (fun h => h)
  have hsort_pw : (sort_queue "FCFS"
      ((spawnLoop cfg { e with env_time := t } n).queue.map agePatient) t).Pairwise pkLe := by
    unfold sort_queue
    apply pairwise_insertionSortBy ?_ haged_pw
    intro x y hxy
    refine Or.inl (lt_of_not_le (fun hle => hxy ?_))
    exact (fcfs_le_iff _ _ _ _).mpr hle
  have hsorted_src : ∀ p ∈ sort_queue "FCFS"
      ((spawnLoop cfg { e with env_time := t } n).queue.map agePatient) t,
      ∃ z, (z ∈ e.queue ∨ z.arrival_time = t) ∧
        p.arrival_time = z.arrival_time ∧ p.id = z.id := by
    intro p hp
    have h2 := (sort_queue_perm _ _ _).mem_iff.mp hp
    rcases List.mem_map.mp h2 with ⟨z, hz, rfl⟩
    exact ⟨z, hq2src z hz, rfl, rfl⟩
  constructor
  · rw [stepE_queue, hpol2]
    exact admitLoop_snd_pairwise _ _ _ hsort_pw
  · intro b hb a ha
    rw [stepE_queue, hpol2] at ha
    have ha2 := admitLoop_snd_mem _ _ _ a ha
    rcases hb with hb | hb
    · rw [stepE_beds, hpol2] at hb
      apply admitLoop_g _ _ _ hsort_pw ?_ b hb a ha
      intro x hx y hy
      rcases processBeds_snd_src _ _ _ x hx with ⟨xb, hxb, he1, he2⟩
      rw [spawnLoop_beds] at hxb
      rcases hsorted_src y hy with ⟨z, hz, f1, f2⟩
      rcases hz with hz | hz
      · exact pkLe_key_right _ _ _ f1.symm f2.symm
          (pkLe_key_left _ _ _ he1.symm he2.symm (w3 xb (Or.inl hxb) z hz))
      · have hxall : xb ∈ allPatients e :=
          List.mem_append_left _ (List.mem_append_right _ hxb)
        refine Or.inl ?_
        rw [he1, f1, hz]
        exact w2 xb hxall
    · rw [stepE_completed] at hb
      rcases List.mem_append.mp hb with hb' | hb'
      · rw [spawnLoop_completed] at hb'
        rcases hsorted_src a ha2 with ⟨z, hz, f1, f2⟩
        rcases hz with hz | hz
        · exact pkLe_key_right _ _ _ f1.symm f2.symm (w3 b (Or.inr hb') z hz)
        · have hball : b ∈ allPatients e := List.mem_append_right _ hb'
          refine Or.inl ?_
          rw [f1, hz]
          exact w2 b hball
      · rcases processBeds_fst_src _ _ _ b hb' with ⟨xb, hxb, he1, he2⟩
        rw [spawnLoop_beds] at hxb
        rcases hsorted_src a ha2 with ⟨z, hz, f1, f2⟩
        rcases hz with hz | hz
        · exact pkLe_key_right _ _ _ f1.symm f2.symm
            (pkLe_key_left _ _ _ he1.symm he2.symm (w3 xb (Or.inl hxb) z hz))
        · have hxall : xb ∈ allPatients e :=
            List.mem_append_left _ (List.mem_append_right _ hxb)
          refine Or.inl ?_
          rw [he1, f1, hz]
          exact w2 xb hxall

theorem fcfs_inv_run (cfg : Config) : ∀ (arrs : List ℕ) (e : EREngine) (t0 : ℕ),
    e.policy_name = "FCFS" →
    e.queue.Pairwise pkLe →
    (∀ p ∈ allPatients e, p.arrival_time < (t0 : ℚ)) →
    (∀ b, (b ∈ e.beds ∨ b ∈ e.completed) → ∀ a ∈ e.queue, pkLe b a) →
    ∀ b, (b ∈ (runSteps cfg e t0 arrs).beds ∨ b ∈ (runSteps cfg e t0 arrs).completed) →
      ∀ a ∈ (runSteps cfg e t0 arrs).queue, pkLe b a := by
  intro arrs
  induction arrs with
  | nil => exact fun e t0 _ _ _ w3 => w3
  | cons n rest ih =>
    intro e t0 hpol w1 w2 w3
    have hstep := step_fcfs cfg e (t0 : ℚ) n hpol w1 w2 w3
    have w2' : ∀ p ∈ allPatients (stepE cfg e (t0 : ℚ) n),
        p.arrival_time < ((t0 + 1 : ℕ) : ℚ) := by
      intro p hp
      rcases stepE_src cfg e (t0 : ℚ) n p hp with ⟨x, hx, he1, _⟩ | he
      · rw [he1]
        have h2 := w2 x hx
        push_cast
        linarith
      · rw [he]
        push_cast
        linarith
    exact ih (stepE cfg e (t0 : ℚ) n) (t0 + 1) (by rw [stepE_policy]; exact hpol)
      hstep.1 w2' hstep.2

theorem mem_id_eq (e : EREngine) (hnd : (allIds e).Nodup) (x y : Patient)
    (hx : x ∈ allPatients e) (hy : y ∈ allPatients e) (he : x.id = y.id) : x = y :=
  List.inj_on_of_nodup_map hnd hx hy he

/-- C8: in every run by normal hourly stepping under the FCFS variant, for
any two patients a and b of the run with a arriving strictly earlier — or
arriving at the same hour but created earlier (smaller id) — whenever b has
been admitted to a bed, a has been admitted too; that is, a is admitted no
later than b, and equal arrival times are served in creation order. -/
theorem fcfs_fairness (cfg : Config) (rng : ℕ → ℚ) (arrs : List ℕ) (a b : Patient)
    (ha : a ∈ allPatients (runN cfg "FCFS" rng arrs))
    (hb : b ∈ allPatients (runN cfg "FCFS" rng arrs))
    (hab : pkLt a b)
    (hadm : b.id ∈ admittedIds (runN cfg "FCFS" rng arrs)) :
    a.id ∈ admittedIds (runN cfg "FCFS" rng arrs) := by
  have hw3 := fcfs_inv_run cfg arrs (initEngine "FCFS" rng) 0 rfl List.Pairwise.nil
    (fun p hp => absurd hp (List.not_mem_nil p))
    (fun b' hb' => by
      rcases hb' with h | h
      · exact absurd h (List.not_mem_nil b')
      · exact absurd h (List.not_mem_nil b'))
  have hids := idsOk_runSteps cfg arrs (initEngine "FCFS" rng) 0 (idsOk_init "FCFS" rng)
  unfold allPatients at ha
  rcases List.mem_append.mp ha with haqb | hac
  · rcases List.mem_append.mp haqb with haq | hab'
    · exfalso
      unfold admittedIds at hadm
      rcases List.mem_map.mp hadm with ⟨b', hb', hbe⟩
      have hb'all : b' ∈ allPatients (runN cfg "FCFS" rng arrs) := by
        unfold allPatients
        rcases List.mem_append.mp hb' with h | h
        · exact List.mem_append_left _ (List.mem_append_right _ h)
        · exact List.mem_append_right _ h
      have hbb : b' = b := mem_id_eq _ hids.1 b' b hb'all hb hbe
      have hle := hw3 b'
        (by
          rcases List.mem_append.mp hb' with h | h
          · exact Or.inl h
          · exact Or.inr h) a haq
      rw [hbb] at hle
      exact pk_lt_le_asymm a b hab hle
    · exact List.mem_map_of_mem _ (List.mem_append_left _ hab')
  · exact List.mem_map_of_mem _ (List.mem_append_right _ hac)

/-- Witness for C8: in a 2-arrival FCFS run both same-hour patients are
admitted; patient 0 (created first) is admitted given that patient 1 is. -/
theorem fcfs_fairness_witness :
    (⟨0, 0, 5, 1, none, Status.IN_BED, "SHORT", 3⟩ : Patient) ∈
      allPatients (runN defaultConfig "FCFS" rngFive [2]) ∧
    (⟨1, 0, 5, 1, none, Status.IN_BED, "SHORT", 3⟩ : Patient) ∈
      allPatients (runN defaultConfig "FCFS" rngFive [2]) ∧
    pkLt (⟨0, 0, 5, 1, none, Status.IN_BED, "SHORT", 3⟩ : Patient)
      (⟨1, 0, 5, 1, none, Status.IN_BED, "SHORT", 3⟩ : Patient) ∧
    (⟨1, 0, 5, 1, none, Status.IN_BED, "SHORT", 3⟩ : Patient).id ∈
      admittedIds (runN defaultConfig "FCFS" rngFive [2]) ∧
    (⟨0, 0, 5, 1, none, Status.IN_BED, "SHORT", 3⟩ : Patient).id ∈
      admittedIds (runN defaultConfig "FCFS" rngFive [2]) :=
  ⟨by decide, by decide, Or.inr ⟨rfl, by decide⟩, by decide,
    fcfs_fairness defaultConfig rngFive [2]
      ⟨0, 0, 5, 1, none, Status.IN_BED, "SHORT", 3⟩
      ⟨1, 0, 5, 1, none, Status.IN_BED, "SHORT", 3⟩
      (by decide) (by decide) (Or.inr ⟨rfl, by decide⟩) (by decide)⟩

end ERSim
